import Mathlib

/-!
Verification of the vox-deorum synchronization substrate and agent utilities.

The definitions below are shallow embeddings of the TypeScript sources of the repository (victory-urgency analysis, agent registry, ledger staleness detection,
and the knowledge-store schema), together with models of the Knowledge Store
operations, Backpressure Queue and Bridge Session, whose implementations are
not part of the available sources and are therefore modelled from the
specification (each such definition is marked `Modelled from the spec:`).

JavaScript conventions used by the embedding:
* JSON values are the inductive `Json`; JS numbers appearing in the analysed
  payloads are integral game quantities and are embedded as `Int` (ratio
  comparisons such as `x / y >= 0.5` are written in the equivalent
  cross-multiplied integer form, valid because the source guards `y > 0`).
* `a ?? b` (nullish coalescing) is `Option.orElse` after mapping both the
  absent field and a `null` field to `none`.
* JS `Map` objects are insertion-ordered association lists with unique keys.
-/

set_option maxRecDepth 10000

namespace VoxDeorum

/-! ### Generic list machinery: an insertion sort for JS `Array.prototype.sort` -/

/-- Insert `x` into `l` before the first element `y` with `le x y`. -/
def insertLe {α : Type} (le : α → α → Bool) (x : α) : List α → List α
  | [] => [x]
  | y :: ys => if le x y then x :: y :: ys else y :: insertLe le x ys

/-- Insertion sort by the boolean comparison `le`. -/
def sortLe {α : Type} (le : α → α → Bool) (l : List α) : List α :=
  l.foldr (insertLe le) []

/-- Whether `l` is sorted according to `le`: every adjacent pair is related. -/
def sortedLe {α : Type} (le : α → α → Bool) : List α → Bool
  | [] => true
  | [_] => true
  | x :: y :: ys => le x y && sortedLe le (y :: ys)

/-! ### JSON values

`Json`, `JsonList` and `JsonFields` form a mutual inductive so that every
function on them is structurally recursive (and hence kernel-evaluable).
`JsonFields` is insertion-ordered, mirroring JS object key order. -/

mutual
inductive Json where
  | null : Json
  | bool (b : Bool) : Json
  | num (n : Int) : Json
  | str (s : String) : Json
  | arr (elems : JsonList) : Json
  | obj (fields : JsonFields) : Json

inductive JsonList where
  | nil : JsonList
  | cons (hd : Json) (tl : JsonList) : JsonList

inductive JsonFields where
  | nil : JsonFields
  | cons (key : String) (value : Json) (tl : JsonFields) : JsonFields
end

/-- Field access `obj[k]`: `some v` when the key is present (even with a
`null` value, as JS `k in obj`), `none` when absent. -/
def JsonFields.lookup : JsonFields → String → Option Json
  | .nil, _ => none
  | .cons k v tl, key => if k == key then some v else tl.lookup key

/-- Embeds `Object.keys`, in insertion order. -/
def JsonFields.keys : JsonFields → List String
  | .nil => []
  | .cons k _ tl => k :: tl.keys

/-- Nullish field read, the building block of `obj.k ?? fallback`: absent
fields and `null` fields are both nullish. -/
def JsonFields.nullish (fs : JsonFields) (k : String) : Option Json :=
  match fs.lookup k with
  | some Json.null => none
  | some v => some v
  | none => none

/-- JS truthiness of an optional field value: `undefined`, `null`, `false`,
`0` and `""` are falsy; objects and arrays are truthy. -/
def jsTruthy : Option Json → Bool
  | some (Json.bool b) => b
  | some (Json.num n) => n != 0
  | some (Json.str s) => s != ""
  | some (Json.arr _) => true
  | some (Json.obj _) => true
  | some Json.null => false
  | none => false

/-- Numeric field value of a nullish read, with the JS `?? 0` default. -/
def jsNumOr0 : Option Json → Int
  | some (Json.num n) => n
  | _ => 0

mutual
/-- Embeds `JSON.stringify` (string escaping is not modelled: the embedding only ever
compares stringified values for equality). -/
def Json.stringify : Json → String
  | .null => "null"
  | .bool b => if b then "true" else "false"
  | .num n => toString n
  | .str s => "\"" ++ s ++ "\""
  | .arr xs => "[" ++ JsonList.stringifyElems xs ++ "]"
  | .obj fs => "\x7b" ++ JsonFields.stringifyEntries fs ++ "\x7d"

def JsonList.stringifyElems : JsonList → String
  | .nil => ""
  | .cons x .nil => Json.stringify x
  | .cons x tl => Json.stringify x ++ "," ++ JsonList.stringifyElems tl

def JsonFields.stringifyEntries : JsonFields → String
  | .nil => ""
  | .cons k v .nil => "\"" ++ k ++ "\":" ++ Json.stringify v
  | .cons k v tl => "\"" ++ k ++ "\":" ++ Json.stringify v ++ "," ++ JsonFields.stringifyEntries tl
end

mutual
/-- Structural equality of JSON values (used to diff payload fields). -/
def Json.beq : Json → Json → Bool
  | .null, .null => true
  | .bool a, .bool b => a == b
  | .num a, .num b => a == b
  | .str a, .str b => a == b
  | .arr a, .arr b => JsonList.beqElems a b
  | .obj a, .obj b => JsonFields.beqEntries a b
  | _, _ => false

def JsonList.beqElems : JsonList → JsonList → Bool
  | .nil, .nil => true
  | .cons a as, .cons b bs => Json.beq a b && JsonList.beqElems as bs
  | _, _ => false

def JsonFields.beqEntries : JsonFields → JsonFields → Bool
  | .nil, .nil => true
  | .cons k v tl, .cons k' v' tl' => k == k' && Json.beq v v' && JsonFields.beqEntries tl tl'
  | _, _ => false
end

/-- Embeds `String.prototype.includes`, over the character list of the haystack. -/
def strContainsAux (pat : List Char) : List Char → Bool
  | [] => pat.isEmpty
  | c :: cs => pat.isPrefixOf (c :: cs) || strContainsAux pat cs

/-- Embeds `s.includes(pat)`. -/
def strContains (s pat : String) : Bool :=
  strContainsAux pat.data s.data

/-! ### Schema constants (src/mcp-server/src/knowledge/schema/base.ts) -/

/-- Embeds `export const MaxMajorCivs = 22` — the maximum number of major civilizations. -/
def MaxMajorCivs : Nat := 22

/-- The boolean visibility columns declared by the `PlayerVisibility`
interface, in declaration order (`Player0` … `Player21`). -/
def playerVisibilityColumns : List String :=
  ["Player0", "Player1", "Player2", "Player3", "Player4", "Player5",
   "Player6", "Player7", "Player8", "Player9", "Player10", "Player11",
   "Player12", "Player13", "Player14", "Player15", "Player16", "Player17",
   "Player18", "Player19", "Player20", "Player21"]

/-! ### Victory urgency analysis (src/unnamed/part_000, victory-urgency utility) -/

/-- Embeds the UrgencyLevel union type (none, approaching, imminent, critical). -/
inductive UrgencyLevel where
  | none
  | approaching
  | imminent
  | critical
deriving DecidableEq, Repr

/-- Position of an urgency level in the `order` array used by `maxUrgency`. -/
def UrgencyLevel.position : UrgencyLevel → Nat
  | .none => 0
  | .approaching => 1
  | .imminent => 2
  | .critical => 3

/-- Embeds `maxUrgency(a, b)`: `order.indexOf(a) >= order.indexOf(b) ? a : b`. -/
def maxUrgency (a b : UrgencyLevel) : UrgencyLevel :=
  if UrgencyLevel.position b ≤ UrgencyLevel.position a then a else b

/-- The `{ urgency, detail }` object returned by the per-victory analyzers. -/
structure UrgencyAnalysis where
  urgency : UrgencyLevel
  detail : String
deriving DecidableEq, Repr

/-- Embeds `analyzeDomination(playerName, data, capitalsNeeded)`. The player entry
must be a non-null object (a non-object entry yields `null` in the source,
directly for primitives and via the `capitals <= 0` default for arrays).
`capitals / capitalsNeeded >= 0.5` is written `capitalsNeeded <= 2 * capitals`,
equivalent because the caller guards `capitalsNeeded > 0`. -/
def analyzeDomination (playerName : String) (data : JsonFields) (capitalsNeeded : Int) :
    Option UrgencyAnalysis :=
  match data.lookup playerName with
  | some (Json.obj playerData) =>
    match playerData.nullish "CapitalsHeld" <|> playerData.nullish "Capitals" with
    | some (Json.num capitals) =>
      if capitals ≤ 0 then none
      else
        let detail := s!"Holds {capitals}/{capitalsNeeded} capitals needed"
        if capitalsNeeded - 1 ≤ capitals then some ⟨.critical, detail⟩
        else if capitalsNeeded - 2 ≤ capitals then some ⟨.imminent, detail⟩
        else if capitalsNeeded ≤ 2 * capitals then some ⟨.approaching, detail⟩
        else none
    | _ => none
  | _ => none

/-- Embeds `analyzeScience(playerName, data)`. `parts` defaults to `0` when the
fields are nullish (a non-numeric `parts` value fails every comparison in the
source and is embedded by the same `0` default). -/
def analyzeScience (playerName : String) (data : JsonFields) : Option UrgencyAnalysis :=
  match data.lookup playerName with
  | some (Json.obj playerData) =>
    let parts : Int := jsNumOr0 (playerData.nullish "SpaceshipParts" <|> playerData.nullish "Parts")
    let hasApollo := jsTruthy (playerData.nullish "HasApolloProgram" <|> playerData.nullish "Apollo")
    if !hasApollo && parts == 0 then none
    else
      let detail := s!"Apollo complete, {parts}/6 spaceship parts built"
      if 5 ≤ parts then some ⟨.critical, detail⟩
      else if 4 ≤ parts then some ⟨.imminent, detail⟩
      else if hasApollo && 2 ≤ parts then some ⟨.approaching, detail⟩
      else none
  | _ => none

/-- Embeds `analyzeCultural(playerName, data, civsNeeded)`; ratio comparison written
in cross-multiplied form, valid under the caller's `civsNeeded > 0` guard. -/
def analyzeCultural (playerName : String) (data : JsonFields) (civsNeeded : Int) :
    Option UrgencyAnalysis :=
  match data.lookup playerName with
  | some (Json.obj playerData) =>
    match playerData.nullish "CivsInfluenced" <|> playerData.nullish "Influenced" with
    | some (Json.num influenced) =>
      if influenced ≤ 0 then none
      else
        let detail := s!"Influential over {influenced}/{civsNeeded} civilizations"
        if civsNeeded - 1 ≤ influenced then some ⟨.critical, detail⟩
        else if civsNeeded - 2 ≤ influenced then some ⟨.imminent, detail⟩
        else if civsNeeded ≤ 2 * influenced then some ⟨.approaching, detail⟩
        else none
    | _ => none
  | _ => none

/-- Embeds `analyzeDiplomatic(playerName, data, votesNeeded)`; the `0.9` / `0.75` /
`0.6` ratio thresholds are written in cross-multiplied form, valid under the
caller's `votesNeeded > 0` guard. -/
def analyzeDiplomatic (playerName : String) (data : JsonFields) (votesNeeded : Int) :
    Option UrgencyAnalysis :=
  match data.lookup playerName with
  | some (Json.obj playerData) =>
    match playerData.nullish "Votes" <|> playerData.nullish "Delegates" with
    | some (Json.num votes) =>
      if votes ≤ 0 then none
      else
        let votingSoon :=
          match data.lookup "Status" with
          | some (Json.str status) => strContains status "Voting Now"
          | _ => false
        if 9 * votesNeeded ≤ 10 * votes && votingSoon then
          some ⟨.critical, s!"{votes}/{votesNeeded} votes, voting now"⟩
        else if 9 * votesNeeded ≤ 10 * votes then
          some ⟨.critical, s!"{votes}/{votesNeeded} votes needed"⟩
        else if 3 * votesNeeded ≤ 4 * votes then
          some ⟨.imminent, s!"{votes}/{votesNeeded} votes needed"⟩
        else if 3 * votesNeeded ≤ 5 * votes then
          some ⟨.approaching, s!"{votes}/{votesNeeded} votes needed"⟩
        else none
    | _ => none
  | _ => none

/-- The thresholds extracted by `extractThresholds(data)`. -/
structure VictoryThresholds where
  capitalsNeeded : Int
  civsNeeded : Int
  votesNeeded : Int

/-- Embeds `extractThresholds(data)`: each threshold is the numeric field value, `0`
when nullish. -/
def extractThresholds (data : JsonFields) : VictoryThresholds :=
  { capitalsNeeded := jsNumOr0 (data.nullish "CapitalsNeeded")
    civsNeeded := jsNumOr0 (data.nullish "CivsNeeded")
    votesNeeded := jsNumOr0 (data.nullish "VotesNeeded") }

/-- Embeds `interface VictoryClinchInfo`. -/
structure VictoryClinchInfo where
  victoryType : String
  urgency : UrgencyLevel
  detail : String
deriving DecidableEq, Repr

/-- Embeds `interface OpponentThreatInfo`. -/
structure OpponentThreatInfo where
  playerName : String
  victoryType : String
  urgency : UrgencyLevel
  detail : String
deriving DecidableEq, Repr

/-- Embeds `interface VictoryUrgencyResult`. -/
structure VictoryUrgencyResult where
  selfClinch : List VictoryClinchInfo
  opponentThreats : List OpponentThreatInfo
  urgencyLevel : UrgencyLevel
deriving DecidableEq, Repr

/-- The `if (analysis) { … }` body shared by the four section loops of
`analyzeVictoryUrgency`: push onto `selfClinch` or `opponentThreats` and raise
`urgencyLevel` with `maxUrgency`. -/
def recordAnalysis (victoryType selfCivName playerName : String)
    (analysis : Option UrgencyAnalysis) (acc : VictoryUrgencyResult) : VictoryUrgencyResult :=
  match analysis with
  | Option.none => acc
  | some a =>
    if playerName == selfCivName then
      { acc with
          selfClinch := acc.selfClinch ++ [⟨victoryType, a.urgency, a.detail⟩],
          urgencyLevel := maxUrgency acc.urgencyLevel a.urgency }
    else
      { acc with
          opponentThreats := acc.opponentThreats ++ [⟨playerName, victoryType, a.urgency, a.detail⟩],
          urgencyLevel := maxUrgency acc.urgencyLevel a.urgency }

/-- One `for (const playerName of Object.keys(data))` loop of
`analyzeVictoryUrgency`, skipping the threshold/metadata keys. -/
def processSection (victoryType selfCivName : String) (skipKeys : List String)
    (analyze : String → Option UrgencyAnalysis) (keys : List String)
    (acc : VictoryUrgencyResult) : VictoryUrgencyResult :=
  keys.foldl
    (fun acc playerName =>
      if skipKeys.contains playerName then acc
      else recordAnalysis victoryType selfCivName playerName (analyze playerName) acc)
    acc

/-- The shape of the victory progress report (schema `VictoryProgress` in
src/mcp-server/src/knowledge/schema/timed.ts): each victory field is either a
status string or a progress object. -/
structure VictoryProgressReport where
  DominationVictory : Json
  ScienceVictory : Json
  CulturalVictory : Json
  DiplomaticVictory : Json

/-- The `// Domination` section of `analyzeVictoryUrgency`. The
`victory.X && typeof victory.X === 'object' && !Array.isArray(victory.X)`
guard of each section selects exactly the `Json.obj` case. -/
def domSection (victory : VictoryProgressReport) (selfCivName : String)
    (acc : VictoryUrgencyResult) : VictoryUrgencyResult :=
  match victory.DominationVictory with
  | Json.obj domData =>
    let capitalsNeeded := (extractThresholds domData).capitalsNeeded
    if 0 < capitalsNeeded then
      processSection "Domination" selfCivName ["CapitalsNeeded", "Contender"]
        (fun p => analyzeDomination p domData capitalsNeeded) domData.keys acc
    else acc
  | _ => acc

/-- The `// Science` section of `analyzeVictoryUrgency`. -/
def sciSection (victory : VictoryProgressReport) (selfCivName : String)
    (acc : VictoryUrgencyResult) : VictoryUrgencyResult :=
  match victory.ScienceVictory with
  | Json.obj sciData =>
    processSection "Science" selfCivName ["Contender"]
      (fun p => analyzeScience p sciData) sciData.keys acc
  | _ => acc

/-- The `// Cultural` section of `analyzeVictoryUrgency`. -/
def culSection (victory : VictoryProgressReport) (selfCivName : String)
    (acc : VictoryUrgencyResult) : VictoryUrgencyResult :=
  match victory.CulturalVictory with
  | Json.obj culData =>
    let civsNeeded := (extractThresholds culData).civsNeeded
    if 0 < civsNeeded then
      processSection "Cultural" selfCivName ["CivsNeeded", "Contender"]
        (fun p => analyzeCultural p culData civsNeeded) culData.keys acc
    else acc
  | _ => acc

/-- The `// Diplomatic` section of `analyzeVictoryUrgency`. -/
def dipSection (victory : VictoryProgressReport) (selfCivName : String)
    (acc : VictoryUrgencyResult) : VictoryUrgencyResult :=
  match victory.DiplomaticVictory with
  | Json.obj dipData =>
    let votesNeeded := (extractThresholds dipData).votesNeeded
    if 0 < votesNeeded then
      processSection "Diplomatic" selfCivName
        ["VotesNeeded", "Status", "ActiveResolutions", "Proposals", "Contender"]
        (fun p => analyzeDiplomatic p dipData votesNeeded) dipData.keys acc
    else acc
  | _ => acc

/-- Embeds `analyzeVictoryUrgency(victory, selfCivName)`: start from the empty
result and run the four victory-type sections in source order. -/
def analyzeVictoryUrgency (victory : Option VictoryProgressReport)
    (selfCivName : Option String) : VictoryUrgencyResult :=
  let result : VictoryUrgencyResult := ⟨[], [], .none⟩
  match victory, selfCivName with
  | some victory, some selfCivName =>
    dipSection victory selfCivName
      (culSection victory selfCivName
        (sciSection victory selfCivName
          (domSection victory selfCivName result)))
  | _, _ => result

/-- Embeds `urgency.toUpperCase()` specialized to the four urgency literals. -/
def urgencyUpper : UrgencyLevel → String
  | .none => "NONE"
  | .approaching => "APPROACHING"
  | .imminent => "IMMINENT"
  | .critical => "CRITICAL"

/-- Embeds `formatUrgencySection(result)`: empty at level none, otherwise the markdown
sections joined with newlines. -/
def formatUrgencySection (result : VictoryUrgencyResult) : String :=
  if result.urgencyLevel = UrgencyLevel.none then ""
  else
    let sections : List String := []
    let sections :=
      if 0 < result.selfClinch.length then
        sections
          ++ ["# VICTORY WITHIN REACH",
              "You are close to winning. Prioritize closing out the game."]
          ++ result.selfClinch.map (fun clinch =>
               let vt := clinch.victoryType
               let u := urgencyUpper clinch.urgency
               let d := clinch.detail
               s!"- **{vt}** [{u}]: {d}")
          ++ [""]
      else sections
    let sections :=
      if 0 < result.opponentThreats.length then
        sections
          ++ ["# URGENT THREAT",
              "An opponent is approaching victory. Consider countermeasures immediately."]
          ++ result.opponentThreats.map (fun threat =>
               let pn := threat.playerName
               let vt := threat.victoryType
               let u := urgencyUpper threat.urgency
               let d := threat.detail
               s!"- **{pn}** — {vt} [{u}]: {d}")
          ++ [""]
      else sections
    String.intercalate "\n" sections

/-! ### Agent registry (src/unnamed/part_001, infra/agent-registry) -/

/-- An agent as the registry sees it: keyed by `name`, with a description. -/
structure VoxAgent where
  name : String
  description : String
deriving DecidableEq, Repr

/-- Embeds `Map.prototype.set`: replace the value in place if the key is present,
otherwise append a new entry (JS maps are insertion-ordered with one entry per
key). -/
def mapSet (entries : List (String × VoxAgent)) (k : String) (v : VoxAgent) :
    List (String × VoxAgent) :=
  match entries with
  | [] => [(k, v)]
  | (k', v') :: rest => if k' == k then (k, v) :: rest else (k', v') :: mapSet rest k v

/-- The effect of `Map.prototype.delete`: drop the entry with key `k` (as a filter;
a JS map holds at most one entry per key). -/
def mapDelete (entries : List (String × VoxAgent)) (k : String) :
    List (String × VoxAgent) :=
  entries.filter (fun p => p.1 != k)

/-- Embeds `Map.prototype.has`. -/
def mapHas (entries : List (String × VoxAgent)) (k : String) : Bool :=
  entries.any (fun p => p.1 == k)

/-- Embeds `Map.prototype.get`. -/
def mapGet (entries : List (String × VoxAgent)) (k : String) : Option VoxAgent :=
  (entries.find? (fun p => p.1 == k)).map (·.2)

/-- Embeds `class AgentRegistry`, restricted to its `agents` map (the logging and
default-agent bookkeeping do not affect the registry operations). -/
structure AgentRegistry where
  agents : List (String × VoxAgent)

/-- Embeds `register(agent)`: returns `!isReplacement` where `isReplacement` is
whether `agent.name` was already registered, then stores the agent. -/
def AgentRegistry.register (r : AgentRegistry) (agent : VoxAgent) :
    Bool × AgentRegistry :=
  let isReplacement := mapHas r.agents agent.name
  (!isReplacement, ⟨mapSet r.agents agent.name agent⟩)

/-- Embeds `unregister(name)`: returns whether the entry existed, and removes it. -/
def AgentRegistry.unregister (r : AgentRegistry) (name : String) :
    Bool × AgentRegistry :=
  (mapHas r.agents name, ⟨mapDelete r.agents name⟩)

/-- Embeds `get(name)`. -/
def AgentRegistry.get (r : AgentRegistry) (name : String) : Option VoxAgent :=
  mapGet r.agents name

/-- Embeds `has(name)`. -/
def AgentRegistry.has (r : AgentRegistry) (name : String) : Bool :=
  mapHas r.agents name

/-! ### Ledger staleness detection (src/unnamed/part_000, strategic warnings) -/

/-- The slice of `GameState` read by `detectLedgerStaleness`: the strategic
ledger, cast to `Record<string, unknown> | undefined` at the call site. -/
structure GameState where
  ledger : Option JsonFields

/-- Embeds `interface StalenessWarning`. -/
structure StalenessWarning where
  field : String
  turnSpan : Int
deriving DecidableEq, Repr

/-- Embeds `const fieldsToCheck = ['ActivePlan', 'ThreatAssessment']`. -/
def checkedStaleFields : List String := ["ActivePlan", "ThreatAssessment"]

/-- Boolean `≤` on `Int`, the effect of the `(a, b) => a - b` sort comparator. -/
def intLe (a b : Int) : Bool := a ≤ b

/-- Embeds `Object.keys(gameStates).map(Number).filter(t => t <= currentTurn)`. -/
def eligibleTurns (gameStates : List (Int × GameState)) (currentTurn : Int) : List Int :=
  (gameStates.map Prod.fst).filter (fun t => intLe t currentTurn)

/-- Embeds `Object.keys(gameStates).map(Number).filter(t => t <= currentTurn)
.sort((a, b) => a - b)`. -/
def staleTurns (gameStates : List (Int × GameState)) (currentTurn : Int) : List Int :=
  sortLe intLe (eligibleTurns gameStates currentTurn)

/-- Embeds `turns[0]` — the earliest eligible turn once sorted. -/
def earliestTurn (gameStates : List (Int × GameState)) (currentTurn : Int) : Int :=
  (staleTurns gameStates currentTurn).getD 0 0

/-- Embeds `turns[turns.length - 1]` — the latest eligible turn once sorted. -/
def latestTurn (gameStates : List (Int × GameState)) (currentTurn : Int) : Int :=
  (staleTurns gameStates currentTurn).getD ((staleTurns gameStates currentTurn).length - 1) 0

/-- Embeds `gameStates[turn]` on the association-list embedding of the record. -/
def statesLookup (gameStates : List (Int × GameState)) (t : Int) : Option GameState :=
  (gameStates.find? (fun p => p.1 == t)).map (·.2)

/-- The inner collection loop of `detectLedgerStaleness`: for each turn, if
the ledger of the state exists and contains `field`, push
`JSON.stringify(ledger[field])`. -/
def staleFieldValues (gameStates : List (Int × GameState)) (turns : List Int)
    (field : String) : List String :=
  turns.filterMap (fun t =>
    match statesLookup gameStates t with
    | some st =>
      match st.ledger with
      | some ledger =>
        match ledger.lookup field with
        | some v => some v.stringify
        | Option.none => none
      | Option.none => none
    | Option.none => none)

/-- Embeds `detectLedgerStaleness(gameStates, currentTurn, threshold)` (the source
default for `threshold` is `10`). -/
def detectLedgerStaleness (gameStates : List (Int × GameState))
    (currentTurn threshold : Int) : List StalenessWarning :=
  let turns := staleTurns gameStates currentTurn
  if turns.length < 2 then []
  else
    let turnSpan := turns.getD (turns.length - 1) 0 - turns.getD 0 0
    if turnSpan < threshold then []
    else
      checkedStaleFields.filterMap (fun field =>
        let values := staleFieldValues gameStates turns field
        if values.length < 2 then none
        else if values.all (fun v => v == values.getD 0 "") then
          some ⟨field, turnSpan⟩
        else none)

/-! ### Knowledge Store model

The Knowledge Store operation implementations (`putMutable`, `appendTimed`,
`getLatest`, `getHistory`) are not among the available sources — only their
schema (src/mcp-server/src/knowledge/schema/base.ts), the table setup
(Knowledge Database Initialization) and their callers are — so the operations
are modelled from the specification (§4.4 / §3). -/

/-- An observer slot (player index up to `MaxMajorCivs`). -/
abbrev Observer := Fin MaxMajorCivs

/-- A per-observer visibility bitmap: one flag per observer slot, the
abstraction of the 22 `PlayerN` boolean columns. -/
abbrev VisibilityMap := Observer → Bool

/-- A stored row of a Mutable table (schema `MutableKnowledge`): `Key`,
`Version`, `IsLatest`, `Changes`, plus the inherited `Turn`, payload and
visibility bitmap. -/
structure MutableRow where
  Key : Nat
  Turn : Nat
  Version : Nat
  IsLatest : Bool
  Visibility : VisibilityMap
  Payload : JsonFields
  Changes : List String

/-- Modelled from the spec: the field diff of the read-merge-write in `putMutable` —
the names of payload fields whose value differs from (or is absent in) the
payload of the prior version. -/
def diffFields (newPayload oldPayload : JsonFields) : List String :=
  newPayload.keys.filter (fun k =>
    match newPayload.lookup k, oldPayload.lookup k with
    | some nv, some ov => !(Json.beq nv ov)
    | _, _ => true)

/-- One `putMutable(key, visibility, payload)` request (plus the turn stamp
inherited from `TimedKnowledge`). -/
structure PutCall where
  key : Nat
  turn : Nat
  visibility : VisibilityMap
  payload : JsonFields

/-- The demotion half of the atomic `putMutable` transition: clear `IsLatest`
on the current latest row of the key. -/
def demoteLatest (key : Nat) (r : MutableRow) : MutableRow :=
  if r.Key == key && r.IsLatest then { r with IsLatest := false } else r

/-- The read half of the `putMutable` read-merge-write: the current `IsLatest`
row for the key, absent on first write. -/
def priorOf (store : List MutableRow) (key : Nat) : Option MutableRow :=
  store.find? (fun r => r.Key == key && r.IsLatest)

/-- Embeds `Version = prior + 1`, starting at 1 on first write. -/
def nextVersion (prior : Option MutableRow) : Nat :=
  match prior with
  | some r => r.Version + 1
  | Option.none => 1

/-- The `Changes` set: fields diffed against the prior version (every field on
first write). -/
def changesOf (payload : JsonFields) (prior : Option MutableRow) : List String :=
  match prior with
  | some r => diffFields payload r.Payload
  | Option.none => JsonFields.keys payload

/-- Modelled from the spec: `putMutable` — read the current `IsLatest` row for
the key (absent on first write), diff fields to compute `Changes`, write a new
row with `Version = prior + 1` (starting at 1), atomically clearing the `IsLatest`
flag of the prior row and setting it on the new row. The read-merge-write
sequence is serialized per key (§4.4/§5), so a write is a single atomic
transition of the store. -/
def putMutable (store : List MutableRow) (c : PutCall) : List MutableRow :=
  store.map (demoteLatest c.key)
    ++ [{ Key := c.key, Turn := c.turn,
          Version := nextVersion (priorOf store c.key), IsLatest := true,
          Visibility := c.visibility, Payload := c.payload,
          Changes := changesOf c.payload (priorOf store c.key) }]

/-- A settled sequence of `putMutable` calls against an initially empty store.
Arbitrary interleavings of concurrent callers are exactly the arbitrary call
orders, because the spec serializes the read-merge-write per key. -/
def runPuts (calls : List PutCall) : List MutableRow :=
  calls.foldl putMutable []

/-- Modelled from the spec: visibility filtering at read time — the projection
of the stored rows down to those whose bit for the requesting observer is set. -/
def visibleMutable (store : List MutableRow) (observer : Observer) : List MutableRow :=
  store.filter (fun r => r.Visibility observer)

/-- Modelled from the spec: `getLatest(key) → record | absent` for an
observer, visibility-filtered. -/
def getLatest (store : List MutableRow) (observer : Observer) (key : Nat) :
    Option MutableRow :=
  (visibleMutable store observer).find? (fun r => r.Key == key && r.IsLatest)

/-- Newest-first comparison on Mutable rows: descending `Version` (per key,
version order is recency order since versions are monotonic per key). -/
def rowVersionGe (a b : MutableRow) : Bool := b.Version ≤ a.Version

/-- Modelled from the spec: `getHistory(key, limit) → ordered sequence,
newest first`, visibility-filtered. -/
def getHistory (store : List MutableRow) (observer : Observer) (key : Nat)
    (limit : Nat) : List MutableRow :=
  (sortLe rowVersionGe ((visibleMutable store observer).filter (fun r => r.Key == key))).take limit

/-- A stored row of a Timed table (schema `TimedKnowledge`): `Turn`, payload
and visibility bitmap, tagged with its record stream. -/
structure TimedRow where
  Stream : Nat
  Turn : Nat
  Visibility : VisibilityMap
  Payload : JsonFields

/-- The store-level error taxonomy entries the model needs (§7). -/
inductive StoreError where
  | validationError
deriving DecidableEq, Repr

/-- The last turn recorded for a record stream (the turn of the most recently
appended row of that stream). -/
def lastTurnOf (store : List TimedRow) (stream : Nat) : Option Nat :=
  ((store.filter (fun r => r.Stream == stream)).map (fun r => r.Turn)).getLast?

/-- Modelled from the spec: `appendTimed(turn, visibility, payload)` — pure
insert; fails (ValidationError, a caller error) iff `turn` is not
monotonically non-decreasing for the same record stream. -/
def appendTimed (store : List TimedRow) (stream turn : Nat) (vis : VisibilityMap)
    (payload : JsonFields) : Except StoreError (List TimedRow) :=
  match lastTurnOf store stream with
  | some lastTurn =>
    if turn < lastTurn then Except.error StoreError.validationError
    else Except.ok (store ++ [⟨stream, turn, vis, payload⟩])
  | Option.none => Except.ok (store ++ [⟨stream, turn, vis, payload⟩])

/-- A sequence of `appendTimed` calls to one stream, stopping at the first
failure. -/
def appendRun (store : List TimedRow) (stream : Nat) (vis : VisibilityMap)
    (payload : JsonFields) : List Nat → Except StoreError (List TimedRow)
  | [] => Except.ok store
  | t :: ts =>
    match appendTimed store stream t vis payload with
    | Except.ok store' => appendRun store' stream vis payload ts
    | Except.error e => Except.error e

/-- Modelled from the spec: the visibility filter applied to Timed reads. -/
def visibleTimed (store : List TimedRow) (observer : Observer) : List TimedRow :=
  store.filter (fun r => r.Visibility observer)

/-- Newest-first comparison on Timed rows: descending `Turn`. -/
def timedTurnGe (a b : TimedRow) : Bool := b.Turn ≤ a.Turn

/-- Modelled from the spec: the Timed-record history read, newest first,
visibility-filtered. -/
def getTimedHistory (store : List TimedRow) (observer : Observer) (stream : Nat)
    (limit : Nat) : List TimedRow :=
  (sortLe timedTurnGe ((visibleTimed store observer).filter (fun r => r.Stream == stream))).take limit

/-- A stored row of a Public table (schema `PublicKnowledge`): key and data,
no visibility bitmap. -/
structure PublicRow where
  Key : Nat
  Data : JsonFields

/-- Modelled from the spec: the Public-record read — Public records bypass the
visibility filter, so the observer argument is ignored. -/
def getPublic (store : List PublicRow) (_observer : Observer) (key : Nat) :
    Option PublicRow :=
  store.find? (fun r => r.Key == key)

/-! ### Backpressure Queue model

The Backpressure Queue implementation is not among the available sources; the
control loop is modelled from the specification (§4.1 and §8). -/

/-- The high-water threshold of the standard lane (spec §8). -/
def highWater : Nat := 50

/-- The low-water threshold of the standard lane (spec §8). -/
def lowWater : Nat := 20

/-- The observable counters of the standard-lane control loop of the queue.
`queued` are submitted operations not yet dispatched to the transport (they
queue locally); `inFlight` are dispatched, unresolved operations. -/
structure QueueState where
  queued : Nat
  inFlight : Nat
  overflow : Bool
  pauseSignals : Nat
  resumeSignals : Nat
deriving DecidableEq, Repr

/-- The pending count of the standard lane: submitted and not yet resolved. -/
def QueueState.pending (s : QueueState) : Nat := s.queued + s.inFlight

/-- The events the control loop reacts to. -/
inductive QueueEvent where
  | submit
  | dispatch
  | complete
deriving DecidableEq, Repr

/-- Modelled from the spec: the backpressure control loop of the queue — when the
pending count of the standard lane exceeds the high-water threshold, issue one
pause command and mark `overflow`; while `overflow` is set, no new standard
admissions are dispatched to the transport (they still queue locally); when
the pending count drops below the low-water threshold, issue one resume
command and clear `overflow`. -/
def queueStep (s : QueueState) : QueueEvent → QueueState
  | .submit =>
    if highWater < s.pending + 1 && !s.overflow then
      { s with queued := s.queued + 1, overflow := true,
               pauseSignals := s.pauseSignals + 1 }
    else { s with queued := s.queued + 1 }
  | .dispatch =>
    if s.overflow || s.queued == 0 then s
    else { s with queued := s.queued - 1, inFlight := s.inFlight + 1 }
  | .complete =>
    if s.inFlight == 0 then s
    else if s.overflow && s.pending - 1 < lowWater then
      { s with inFlight := s.inFlight - 1, overflow := false,
               resumeSignals := s.resumeSignals + 1 }
    else { s with inFlight := s.inFlight - 1 }

/-- Run a sequence of queue events. -/
def queueRun (events : List QueueEvent) (s : QueueState) : QueueState :=
  events.foldl queueStep s

/-- The idle initial queue state. -/
def queueInit : QueueState := ⟨0, 0, false, 0, 0⟩

/-- Every intermediate pending count along `events` stays at or below the
high-water mark (the "oscillates only between 45 and 49" scenarios). -/
def pendingBounded (s : QueueState) : List QueueEvent → Bool
  | [] => true
  | e :: es =>
    let s' := queueStep s e
    decide (s'.pending ≤ highWater) && pendingBounded s' es

/-- Embeds `n` submit-then-dispatch pairs followed by the remaining events: the trace
shape of the end-to-end backpressure scenarios. -/
def submitDispatchPairs (n : Nat) : List QueueEvent :=
  (List.replicate n [QueueEvent.submit, QueueEvent.dispatch]).flatten

/-! ### Bridge Session disconnect model

The Bridge Session and the queue failure semantics are not among the
available sources; they are modelled from the specification (§4.1 failure
semantics, §4.3, §8 disconnect semantics). -/

/-- The two priority lanes. -/
inductive Lane where
  | standard
  | fast
deriving DecidableEq, Repr

/-- An operation as tracked by the queue: an identifier and its lane. -/
structure Operation where
  id : Nat
  lane : Lane
deriving DecidableEq, Repr

/-- The connection-error result carried by failed operations (§7). -/
inductive OpError where
  | transportError
deriving DecidableEq, Repr

/-- The session-facing queue state: link status, the queued and
in-flight operations of both lanes, and the resolved operations. -/
structure SessionState where
  connected : Bool
  queuedOps : List Operation
  inFlightOps : List Operation
  failed : List (Operation × OpError)
  completed : List Operation
deriving DecidableEq, Repr

/-- The events of the disconnect model: submissions, dispatch, completion and
the `dll_status` connectivity events. -/
inductive SessionEvent where
  | submit (op : Operation)
  | dispatchOne
  | completeOne
  | statusDisconnected
  | statusConnected
deriving DecidableEq, Repr

/-- Modelled from the spec: on a `dll_status: disconnected` event every
pending and in-flight operation in both lanes fails with a TransportError in
that same transition (one scheduling tick); dispatch only proceeds while
connected; a failed operation is never re-enqueued (no auto-retry — retry is
the caller's responsibility). -/
def sessionStep (s : SessionState) : SessionEvent → SessionState
  | .submit op => { s with queuedOps := s.queuedOps ++ [op] }
  | .dispatchOne =>
    if !s.connected then s
    else
      match s.queuedOps with
      | [] => s
      | op :: rest => { s with queuedOps := rest, inFlightOps := s.inFlightOps ++ [op] }
  | .completeOne =>
    match s.inFlightOps with
    | [] => s
    | op :: rest => { s with inFlightOps := rest, completed := s.completed ++ [op] }
  | .statusDisconnected =>
    { s with connected := false,
             failed := s.failed ++ (s.queuedOps ++ s.inFlightOps).map
               (fun op => (op, OpError.transportError)),
             queuedOps := [], inFlightOps := [] }
  | .statusConnected => { s with connected := true }

/-! ### Statement-support definitions -/

/-- The maximum of a list of urgency levels (identity none), the shape in
which `analyzeVictoryUrgency` accumulates `urgencyLevel`. -/
def urgencyListMax (l : List UrgencyLevel) : UrgencyLevel :=
  l.foldl maxUrgency UrgencyLevel.none

/-- The accumulation invariant of `analyzeVictoryUrgency`: the result's
`urgencyLevel` is the maximum urgency over all collected warnings. -/
def resultInv (r : VictoryUrgencyResult) : Prop :=
  r.urgencyLevel =
    urgencyListMax (r.selfClinch.map VictoryClinchInfo.urgency
      ++ r.opponentThreats.map OpponentThreatInfo.urgency)

/-- The stored rows of the Mutable store belonging to one key. -/
def keyRows (store : List MutableRow) (k : Nat) : List MutableRow :=
  store.filter (fun r => r.Key == k)

/-- The `IsLatest` column pattern of the rows of one key: every row demoted except
the most recent one. -/
def latestPattern : Nat → List Bool
  | 0 => []
  | n + 1 => List.replicate n false ++ [true]

/-- The per-key store invariant: the rows of a key carry versions `1, 2, …, n` in
storage order and exactly the last one is flagged `IsLatest`. -/
def mutableKeyInv (store : List MutableRow) (k : Nat) : Prop :=
  (keyRows store k).map MutableRow.Version = List.range' 1 (keyRows store k).length ∧
  (keyRows store k).map MutableRow.IsLatest = latestPattern (keyRows store k).length

/-- The number of (successful) `putMutable` writes to a key in a call list. -/
def writesTo (calls : List PutCall) (k : Nat) : Nat :=
  (calls.filter (fun c => c.key == k)).length

/-! ## Theorems -/

/-! ### Sorting lemmas -/

theorem perm_insertLe {α : Type} (le : α → α → Bool) (x : α) (l : List α) :
    List.Perm (insertLe le x l) (x :: l) := by
  induction l with
  | nil => simp [insertLe]
  | cons y ys ih =>
    simp only [insertLe]
    split
    · exact List.Perm.refl _
    · exact (ih.cons y).trans (List.Perm.swap x y ys)

theorem perm_sortLe {α : Type} (le : α → α → Bool) (l : List α) :
    List.Perm (sortLe le l) l := by
  induction l with
  | nil => exact List.Perm.refl _
  | cons x xs ih =>
    exact (perm_insertLe le x (sortLe le xs)).trans (ih.cons x)

theorem mem_sortLe {α : Type} (le : α → α → Bool) (l : List α) (x : α) :
    x ∈ sortLe le l ↔ x ∈ l :=
  (perm_sortLe le l).mem_iff

theorem length_sortLe {α : Type} (le : α → α → Bool) (l : List α) :
    (sortLe le l).length = l.length :=
  (perm_sortLe le l).length_eq

theorem sortedLe_tail {α : Type} (le : α → α → Bool) :
    ∀ (x : α) (l : List α), sortedLe le (x :: l) = true → sortedLe le l = true
  | _, [], _ => rfl
  | x, y :: ys, h => by
    simp only [sortedLe, Bool.and_eq_true] at h
    exact h.2

theorem sortedLe_head_le {α : Type} (le : α → α → Bool)
    (htrans : ∀ a b c, le a b = true → le b c = true → le a c = true) :
    ∀ (x : α) (l : List α), sortedLe le (x :: l) = true → ∀ y ∈ l, le x y = true
  | _, [], _, _, hy => by cases hy
  | x, z :: zs, h, y, hy => by
    simp only [sortedLe, Bool.and_eq_true] at h
    rcases List.mem_cons.mp hy with rfl | hy'
    · exact h.1
    · exact htrans x z y h.1 (sortedLe_head_le le htrans z zs h.2 y hy')

theorem sortedLe_insertLe {α : Type} (le : α → α → Bool)
    (htot : ∀ a b, le a b = true ∨ le b a = true) (x : α) (l : List α)
    (h : sortedLe le l = true) : sortedLe le (insertLe le x l) = true := by
  induction l with
  | nil => rfl
  | cons y ys ih =>
    simp only [insertLe]
    split
    · next hxy => simpa [sortedLe, Bool.and_eq_true] using ⟨hxy, h⟩
    · next hxy =>
      have hyx : le y x = true := by
        rcases htot x y with h' | h'
        · exact absurd h' hxy
        · exact h'
      cases ys with
      | nil => simp [insertLe, sortedLe, hyx]
      | cons z zs =>
        have h' := h
        simp only [sortedLe, Bool.and_eq_true] at h'
        have htail := ih h'.2
        simp only [insertLe] at htail ⊢
        split
        · next hxz =>
          simpa [sortedLe, Bool.and_eq_true] using ⟨hyx, hxz, h'.2⟩
        · next hxz =>
          simp only [if_neg hxz] at htail
          simpa [sortedLe, Bool.and_eq_true] using ⟨h'.1, htail⟩

theorem sortedLe_sortLe {α : Type} (le : α → α → Bool)
    (htot : ∀ a b, le a b = true ∨ le b a = true) (l : List α) :
    sortedLe le (sortLe le l) = true := by
  induction l with
  | nil => rfl
  | cons x xs ih => exact sortedLe_insertLe le htot x (sortLe le xs) ih

theorem sortedLe_take {α : Type} (le : α → α → Bool) :
    ∀ (l : List α) (n : Nat), sortedLe le l = true → sortedLe le (l.take n) = true
  | [], _, _ => by simp [sortedLe]
  | _ :: _, 0, _ => rfl
  | [_], n + 1, _ => by cases n <;> rfl
  | _ :: _ :: _, 1, _ => rfl
  | x :: z :: zs, n + 2, h => by
    simp only [sortedLe, Bool.and_eq_true] at h
    have ht := sortedLe_take le (z :: zs) (n + 1) h.2
    simp only [List.take] at ht ⊢
    simp only [sortedLe, Bool.and_eq_true]
    exact ⟨h.1, ht⟩

theorem sortedLe_take_le_drop {α : Type} (le : α → α → Bool)
    (htrans : ∀ a b c, le a b = true → le b c = true → le a c = true) :
    ∀ (l : List α) (n : Nat), sortedLe le l = true →
      ∀ x ∈ l.take n, ∀ y ∈ l.drop n, le x y = true
  | [], n, _, x, hx, _, _ => by simp at hx
  | _ :: _, 0, _, x, hx, _, _ => by cases hx
  | a :: as, n + 1, h, x, hx, y, hy => by
    simp only [List.take, List.drop] at hx hy
    rcases List.mem_cons.mp hx with rfl | hx'
    · exact sortedLe_head_le le htrans x as h y (List.mem_of_mem_drop hy)
    · exact sortedLe_take_le_drop le htrans as n (sortedLe_tail le a as h) x hx' y hy

theorem getD_last_mem {α : Type} :
    ∀ (l : List α) (d : α), l ≠ [] → l.getD (l.length - 1) d ∈ l
  | [], _, h => absurd rfl h
  | [x], d, _ => by simp
  | x :: z :: zs, d, _ => by
    have hrec := getD_last_mem (z :: zs) d (by simp)
    have hidx : (x :: z :: zs).getD ((x :: z :: zs).length - 1) d
        = (z :: zs).getD ((z :: zs).length - 1) d := by
      simp [List.getD_cons_succ]
    rw [hidx]
    exact List.mem_cons_of_mem x hrec

theorem sortedLe_le_getD_last {α : Type} (le : α → α → Bool)
    (hrefl : ∀ a, le a a = true)
    (htrans : ∀ a b c, le a b = true → le b c = true → le a c = true) :
    ∀ (l : List α) (d : α), sortedLe le l = true →
      ∀ y ∈ l, le y (l.getD (l.length - 1) d) = true
  | [], _, _, _, hy => by cases hy
  | [x], d, _, y, hy => by
    rcases List.mem_cons.mp hy with rfl | h0
    · simpa using hrefl y
    · cases h0
  | x :: z :: zs, d, h, y, hy => by
    have hidx : (x :: z :: zs).getD ((x :: z :: zs).length - 1) d
        = (z :: zs).getD ((z :: zs).length - 1) d := by
      simp [List.getD_cons_succ]
    rw [hidx]
    rcases List.mem_cons.mp hy with rfl | hy'
    · exact sortedLe_head_le le htrans y (z :: zs) h _ (getD_last_mem (z :: zs) d (by simp))
    · exact sortedLe_le_getD_last le hrefl htrans (z :: zs) d
        (sortedLe_tail le x (z :: zs) h) y hy'

theorem sortedLe_getD_head_le {α : Type} (le : α → α → Bool)
    (hrefl : ∀ a, le a a = true)
    (htrans : ∀ a b c, le a b = true → le b c = true → le a c = true)
    (l : List α) (d : α) (h : sortedLe le l = true) :
    ∀ y ∈ l, le (l.getD 0 d) y = true := by
  intro y hy
  cases l with
  | nil => cases hy
  | cons x xs =>
    rcases List.mem_cons.mp hy with rfl | hy'
    · simpa using hrefl y
    · simpa using sortedLe_head_le le htrans x xs h y hy'

/-! ### C6: the visibility bitmap schema -/

/-- C6: The `PlayerVisibility` interface declares exactly one boolean
flag per observer slot — the columns are precisely `Player0` … `Player21`,
one per index below the maximum, there are `MaxMajorCivs` of them, and
`MaxMajorCivs = 22`. -/
theorem playerVisibility_one_flag_per_slot :
    playerVisibilityColumns.length = MaxMajorCivs ∧
    MaxMajorCivs = 22 ∧
    playerVisibilityColumns
      = (List.range MaxMajorCivs).map (fun i => "Player" ++ toString i) ∧
    playerVisibilityColumns.Nodup := by
  refine ⟨by decide, by decide, by decide, ?_⟩
  decide

/-! ### C8: maxUrgency and the urgency accumulation invariant -/

theorem maxUrgency_comm (a b : UrgencyLevel) : maxUrgency a b = maxUrgency b a := by
  cases a <;> cases b <;> decide

theorem maxUrgency_rotate (a u b : UrgencyLevel) :
    maxUrgency (maxUrgency a u) b = maxUrgency (maxUrgency a b) u := by
  cases a <;> cases u <;> cases b <;> decide

theorem foldl_maxUrgency_pull (l : List UrgencyLevel) :
    ∀ a u, l.foldl maxUrgency (maxUrgency a u) = maxUrgency u (l.foldl maxUrgency a) := by
  induction l with
  | nil => intro a u; exact maxUrgency_comm a u
  | cons b bs ih =>
    intro a u
    show bs.foldl maxUrgency (maxUrgency (maxUrgency a u) b)
        = maxUrgency u (bs.foldl maxUrgency (maxUrgency a b))
    rw [maxUrgency_rotate a u b]
    exact ih (maxUrgency a b) u

theorem urgencyListMax_append_middle (l1 l2 : List UrgencyLevel) (u : UrgencyLevel) :
    urgencyListMax (l1 ++ u :: l2) = maxUrgency (urgencyListMax (l1 ++ l2)) u := by
  unfold urgencyListMax
  rw [List.foldl_append, List.foldl_append]
  show l2.foldl maxUrgency (maxUrgency (l1.foldl maxUrgency UrgencyLevel.none) u) = _
  rw [foldl_maxUrgency_pull l2 _ u]
  exact maxUrgency_comm _ _

theorem recordAnalysis_inv (vt self pn : String) (analysis : Option UrgencyAnalysis)
    (acc : VictoryUrgencyResult) (h : resultInv acc) :
    resultInv (recordAnalysis vt self pn analysis acc) := by
  cases analysis with
  | none => exact h
  | some a =>
    unfold resultInv at h
    unfold recordAnalysis
    dsimp only
    by_cases hps : (pn == self) = true
    · rw [if_pos hps]
      show maxUrgency acc.urgencyLevel a.urgency
          = urgencyListMax
              ((acc.selfClinch
                  ++ [({ victoryType := vt, urgency := a.urgency, detail := a.detail }
                        : VictoryClinchInfo)]).map VictoryClinchInfo.urgency
                ++ acc.opponentThreats.map OpponentThreatInfo.urgency)
      rw [List.map_append, List.append_assoc]
      show maxUrgency acc.urgencyLevel a.urgency
          = urgencyListMax (acc.selfClinch.map VictoryClinchInfo.urgency
              ++ a.urgency :: acc.opponentThreats.map OpponentThreatInfo.urgency)
      rw [urgencyListMax_append_middle, ← h]
    · rw [if_neg hps]
      show maxUrgency acc.urgencyLevel a.urgency
          = urgencyListMax
              (acc.selfClinch.map VictoryClinchInfo.urgency
                ++ (acc.opponentThreats
                      ++ [({ playerName := pn, victoryType := vt, urgency := a.urgency,
                             detail := a.detail } : OpponentThreatInfo)]).map
                     OpponentThreatInfo.urgency)
      rw [List.map_append, ← List.append_assoc]
      show maxUrgency acc.urgencyLevel a.urgency
          = urgencyListMax ((acc.selfClinch.map VictoryClinchInfo.urgency
              ++ acc.opponentThreats.map OpponentThreatInfo.urgency) ++ a.urgency :: [])
      rw [urgencyListMax_append_middle, List.append_nil, ← h]

theorem processSection_inv (vt self : String) (skip : List String)
    (analyze : String → Option UrgencyAnalysis) :
    ∀ (keys : List String) (acc : VictoryUrgencyResult), resultInv acc →
      resultInv (processSection vt self skip analyze keys acc)
  | [], _, h => h
  | k :: ks, acc, h => by
    have hstep : resultInv
        (if skip.contains k then acc else recordAnalysis vt self k (analyze k) acc) := by
      split
      · exact h
      · exact recordAnalysis_inv vt self k (analyze k) acc h
    exact processSection_inv vt self skip analyze ks _ hstep

theorem domSection_inv (v : VictoryProgressReport) (self : String)
    (acc : VictoryUrgencyResult) (h : resultInv acc) :
    resultInv (domSection v self acc) := by
  unfold domSection
  split
  · dsimp only
    split
    · exact processSection_inv _ _ _ _ _ _ h
    · exact h
  · exact h

theorem sciSection_inv (v : VictoryProgressReport) (self : String)
    (acc : VictoryUrgencyResult) (h : resultInv acc) :
    resultInv (sciSection v self acc) := by
  unfold sciSection
  split
  · exact processSection_inv _ _ _ _ _ _ h
  · exact h

theorem culSection_inv (v : VictoryProgressReport) (self : String)
    (acc : VictoryUrgencyResult) (h : resultInv acc) :
    resultInv (culSection v self acc) := by
  unfold culSection
  split
  · dsimp only
    split
    · exact processSection_inv _ _ _ _ _ _ h
    · exact h
  · exact h

theorem dipSection_inv (v : VictoryProgressReport) (self : String)
    (acc : VictoryUrgencyResult) (h : resultInv acc) :
    resultInv (dipSection v self acc) := by
  unfold dipSection
  split
  · dsimp only
    split
    · exact processSection_inv _ _ _ _ _ _ h
    · exact h
  · exact h

theorem analyzeVictoryUrgency_inv (victory : Option VictoryProgressReport)
    (selfCiv : Option String) : resultInv (analyzeVictoryUrgency victory selfCiv) := by
  have hbase : resultInv ⟨[], [], UrgencyLevel.none⟩ := rfl
  cases victory with
  | none => exact hbase
  | some v =>
    cases selfCiv with
    | none => exact hbase
    | some name =>
      exact dipSection_inv _ _ _ (culSection_inv _ _ _
        (sciSection_inv _ _ _ (domSection_inv _ _ _ hbase)))

/-- C8: `maxUrgency` is the maximum under the total order
`none < approaching < imminent < critical` (it returns one of its arguments,
with the larger position; it is commutative and idempotent with none as
identity), the `urgencyLevel` of `analyzeVictoryUrgency` equals the maximum
urgency over all collected warnings (the maximum of the empty collection being
none), and `formatUrgencySection` returns the empty string on a result whose
urgency level is none. -/
theorem maxUrgency_is_max_and_urgencyLevel_is_warning_max :
    (∀ a b : UrgencyLevel,
        (maxUrgency a b).position = max a.position b.position
        ∧ (maxUrgency a b = a ∨ maxUrgency a b = b))
    ∧ (∀ a b : UrgencyLevel, maxUrgency a b = maxUrgency b a)
    ∧ (∀ a : UrgencyLevel, maxUrgency a a = a)
    ∧ (∀ a : UrgencyLevel,
        maxUrgency UrgencyLevel.none a = a ∧ maxUrgency a UrgencyLevel.none = a)
    ∧ (∀ (victory : Option VictoryProgressReport) (selfCiv : Option String),
        (analyzeVictoryUrgency victory selfCiv).urgencyLevel
          = urgencyListMax
              ((analyzeVictoryUrgency victory selfCiv).selfClinch.map VictoryClinchInfo.urgency
                ++ (analyzeVictoryUrgency victory selfCiv).opponentThreats.map
                     OpponentThreatInfo.urgency))
    ∧ urgencyListMax [] = UrgencyLevel.none
    ∧ (∀ (sc : List VictoryClinchInfo) (ot : List OpponentThreatInfo),
        formatUrgencySection ⟨sc, ot, UrgencyLevel.none⟩ = "") := by
  refine ⟨?_, ?_, ?_, ?_, ?_, rfl, ?_⟩
  · intro a b; cases a <;> cases b <;> exact ⟨by decide, by decide⟩
  · exact maxUrgency_comm
  · intro a; cases a <;> decide
  · intro a; cases a <;> exact ⟨by decide, by decide⟩
  · exact fun victory selfCiv => analyzeVictoryUrgency_inv victory selfCiv
  · intro sc ot
    simp [formatUrgencySection]

/-! ### C9: the agent registry -/

theorem mapGet_mapSet (m : List (String × VoxAgent)) (k : String) (v : VoxAgent) :
    mapGet (mapSet m k v) k = some v := by
  induction m with
  | nil => simp [mapSet, mapGet, List.find?]
  | cons p rest ih =>
    obtain ⟨k', v'⟩ := p
    simp only [mapSet]
    split
    · simp [mapGet, List.find?]
    · next hne =>
      have hne' : (k' == k) = false := by
        cases hkk : k' == k with
        | false => rfl
        | true => exact absurd hkk hne
      simp only [mapGet, List.find?, hne'] at ih ⊢
      exact ih

theorem mapHas_mapDelete (m : List (String × VoxAgent)) (k : String) :
    mapHas (mapDelete m k) k = false := by
  rw [Bool.eq_false_iff]
  intro hcontra
  simp only [mapHas, mapDelete, List.any_eq_true, List.mem_filter] at hcontra
  obtain ⟨p, ⟨_, hkeep⟩, hmatch⟩ := hcontra
  rw [bne_iff_ne] at hkeep
  exact hkeep (eq_of_beq hmatch)

/-- C9: `register(agent)` returns `true` iff no agent with that name was
registered before the call, and afterwards `get(agent.name)` returns exactly
that agent; `unregister(name)` returns `true` iff `name` was registered, and
afterwards `has(name)` is `false`. -/
theorem agentRegistry_register_unregister_contract :
    ∀ (r : AgentRegistry) (agent : VoxAgent) (name : String),
      ((r.register agent).1 = true ↔ r.has agent.name = false)
      ∧ (r.register agent).2.get agent.name = some agent
      ∧ ((r.unregister name).1 = true ↔ r.has name = true)
      ∧ (r.unregister name).2.has name = false := by
  intro r agent name
  refine ⟨?_, ?_, Iff.rfl, ?_⟩
  · show (!mapHas r.agents agent.name) = true ↔ mapHas r.agents agent.name = false
    simp
  · exact mapGet_mapSet r.agents agent.name agent
  · exact mapHas_mapDelete r.agents name

/-! ### C10: ledger staleness detection -/

theorem intLe_iff (a b : Int) : intLe a b = true ↔ a ≤ b := by
  simp [intLe]

theorem intLe_total (a b : Int) : intLe a b = true ∨ intLe b a = true := by
  rcases Int.le_total a b with h | h
  · exact Or.inl ((intLe_iff a b).mpr h)
  · exact Or.inr ((intLe_iff b a).mpr h)

theorem intLe_refl (a : Int) : intLe a a = true :=
  (intLe_iff a a).mpr (Int.le_refl a)

theorem intLe_trans (a b c : Int) (h1 : intLe a b = true) (h2 : intLe b c = true) :
    intLe a c = true :=
  (intLe_iff a c).mpr (Int.le_trans ((intLe_iff a b).mp h1) ((intLe_iff b c).mp h2))

/-- C10: `detectLedgerStaleness` returns no warning when fewer than two
game states exist at turns `≤ currentTurn` or when the span between the
earliest and latest such turns is below the threshold; otherwise it warns
about a checked field (`'ActivePlan'`, `'ThreatAssessment'`) iff at least two
states contain that ledger field and all its JSON-serialized values are
identical; the span reported is latest minus earliest eligible turn. -/
theorem detectLedgerStaleness_characterization :
    ∀ (gameStates : List (Int × GameState)) (currentTurn threshold : Int),
      List.Perm (staleTurns gameStates currentTurn) (eligibleTurns gameStates currentTurn)
      ∧ sortedLe intLe (staleTurns gameStates currentTurn) = true
      ∧ (eligibleTurns gameStates currentTurn ≠ [] →
          earliestTurn gameStates currentTurn ∈ eligibleTurns gameStates currentTurn
          ∧ latestTurn gameStates currentTurn ∈ eligibleTurns gameStates currentTurn
          ∧ ∀ t ∈ eligibleTurns gameStates currentTurn,
              earliestTurn gameStates currentTurn ≤ t
              ∧ t ≤ latestTurn gameStates currentTurn)
      ∧ ((eligibleTurns gameStates currentTurn).length < 2 →
          detectLedgerStaleness gameStates currentTurn threshold = [])
      ∧ (latestTurn gameStates currentTurn - earliestTurn gameStates currentTurn < threshold →
          detectLedgerStaleness gameStates currentTurn threshold = [])
      ∧ (2 ≤ (eligibleTurns gameStates currentTurn).length →
          threshold ≤ latestTurn gameStates currentTurn - earliestTurn gameStates currentTurn →
          ∀ (f : String) (s : Int),
            StalenessWarning.mk f s ∈ detectLedgerStaleness gameStates currentTurn threshold
              ↔ f ∈ checkedStaleFields
                ∧ s = latestTurn gameStates currentTurn - earliestTurn gameStates currentTurn
                ∧ 2 ≤ (staleFieldValues gameStates (staleTurns gameStates currentTurn) f).length
                ∧ ∀ v ∈ staleFieldValues gameStates (staleTurns gameStates currentTurn) f,
                    v = (staleFieldValues gameStates
                          (staleTurns gameStates currentTurn) f).getD 0 "") := by
  intro gameStates currentTurn threshold
  have hperm : List.Perm (staleTurns gameStates currentTurn)
      (eligibleTurns gameStates currentTurn) :=
    perm_sortLe intLe _
  have hsorted : sortedLe intLe (staleTurns gameStates currentTurn) = true :=
    sortedLe_sortLe intLe intLe_total _
  have hlen : (staleTurns gameStates currentTurn).length
      = (eligibleTurns gameStates currentTurn).length := hperm.length_eq
  refine ⟨hperm, hsorted, ?_, ?_, ?_, ?_⟩
  · intro hne
    have hsne : staleTurns gameStates currentTurn ≠ [] := by
      intro h0
      exact hne (List.eq_nil_of_length_eq_zero (by rw [← hlen, h0]; rfl))
    have hearly : earliestTurn gameStates currentTurn ∈ staleTurns gameStates currentTurn := by
      unfold earliestTurn
      cases hs : staleTurns gameStates currentTurn with
      | nil => exact absurd hs hsne
      | cons x xs => simp
    have hlate : latestTurn gameStates currentTurn ∈ staleTurns gameStates currentTurn :=
      getD_last_mem _ 0 hsne
    refine ⟨hperm.mem_iff.mp hearly, hperm.mem_iff.mp hlate, ?_⟩
    intro t ht
    have ht' : t ∈ staleTurns gameStates currentTurn := hperm.mem_iff.mpr ht
    constructor
    · exact (intLe_iff _ _).mp
        (sortedLe_getD_head_le intLe intLe_refl intLe_trans _ 0 hsorted t ht')
    · exact (intLe_iff _ _).mp
        (sortedLe_le_getD_last intLe intLe_refl intLe_trans _ 0 hsorted t ht')
  · intro hlt
    unfold detectLedgerStaleness
    rw [if_pos (by rw [hlen]; exact hlt)]
  · intro hspan
    unfold latestTurn earliestTurn at hspan
    unfold detectLedgerStaleness
    by_cases h2 : (staleTurns gameStates currentTurn).length < 2
    · rw [if_pos h2]
    · rw [if_neg h2]
      dsimp only
      rw [if_pos hspan]
  · intro h2 hspan f s
    unfold latestTurn earliestTurn at hspan ⊢
    unfold detectLedgerStaleness
    rw [if_neg (by rw [hlen]; omega)]
    dsimp only
    rw [if_neg (by omega)]
    rw [List.mem_filterMap]
    constructor
    · rintro ⟨a, ha, hg⟩
      by_cases hav : (staleFieldValues gameStates (staleTurns gameStates currentTurn) a).length < 2
      · rw [if_pos hav] at hg
        cases hg
      · rw [if_neg hav] at hg
        by_cases hall : (staleFieldValues gameStates (staleTurns gameStates currentTurn) a).all
            (fun v => v == (staleFieldValues gameStates
              (staleTurns gameStates currentTurn) a).getD 0 "") = true
        · rw [if_pos hall] at hg
          obtain ⟨rfl, rfl⟩ : a = f ∧ (latestTurn gameStates currentTurn
              - earliestTurn gameStates currentTurn) = s := by
            have := Option.some.inj hg
            exact ⟨congrArg StalenessWarning.field this,
                   congrArg StalenessWarning.turnSpan this⟩
          refine ⟨ha, rfl, by omega, ?_⟩
          intro v hv
          have := (List.all_eq_true.mp hall) v hv
          exact eq_of_beq this
        · rw [if_neg hall] at hg
          cases hg
    · rintro ⟨hf, rfl, hvlen, hall⟩
      refine ⟨f, hf, ?_⟩
      rw [if_neg (by omega)]
      have hcond : ((staleFieldValues gameStates (staleTurns gameStates currentTurn) f).all
          fun v => v == (staleFieldValues gameStates
            (staleTurns gameStates currentTurn) f).getD 0 "") = true := by
        rw [List.all_eq_true]
        intro v hv
        exact beq_iff_eq.mpr (hall v hv)
      rw [if_pos hcond]

/-- Witness for C10: two states at turns 0 and 12 with an identical
`ActivePlan` ledger value span 12 ≥ 10 turns, so a staleness warning fires. -/
theorem detectLedgerStaleness_characterization_witness :
    StalenessWarning.mk "ActivePlan" 12
      ∈ detectLedgerStaleness
          [(0, ⟨some (JsonFields.cons "ActivePlan" (Json.str "hold") JsonFields.nil)⟩),
           (12, ⟨some (JsonFields.cons "ActivePlan" (Json.str "hold") JsonFields.nil)⟩)]
          20 10 := by
  have h := detectLedgerStaleness_characterization
    [(0, ⟨some (JsonFields.cons "ActivePlan" (Json.str "hold") JsonFields.nil)⟩),
     (12, ⟨some (JsonFields.cons "ActivePlan" (Json.str "hold") JsonFields.nil)⟩)] 20 10
  exact (h.2.2.2.2.2 (by decide) (by decide) "ActivePlan" 12).mpr
    ⟨by decide, by decide, by decide, by decide⟩

/-! ### C1: putMutable versioning invariants -/

theorem find?_and_filter {α : Type} (p q : α → Bool) (l : List α) :
    l.find? (fun a => p a && q a) = (l.filter p).find? q := by
  induction l with
  | nil => rfl
  | cons x xs ih =>
    by_cases hp : p x = true
    · rw [List.filter_cons_of_pos hp]
      by_cases hq : q x = true
      · have h1 : (p x && q x) = true := by simp [hp, hq]
        rw [@List.find?_cons_of_pos _ (fun a => p a && q a) x xs h1,
           List.find?_cons_of_pos _ hq]
      · have h1 : ¬((p x && q x) = true) := by simp [hp, hq]
        rw [@List.find?_cons_of_neg _ (fun a => p a && q a) x xs h1,
           List.find?_cons_of_neg _ hq, ih]
    · have h1 : ¬((p x && q x) = true) := by simp [hp]
      rw [List.filter_cons_of_neg hp,
         @List.find?_cons_of_neg _ (fun a => p a && q a) x xs h1, ih]

theorem keyRows_cons (r : MutableRow) (rs : List MutableRow) (k : Nat) :
    keyRows (r :: rs) k = if (r.Key == k) = true then r :: keyRows rs k else keyRows rs k := by
  simp only [keyRows, List.filter_cons]

theorem keyRows_append (l1 l2 : List MutableRow) (k : Nat) :
    keyRows (l1 ++ l2) k = keyRows l1 k ++ keyRows l2 k := by
  simp [keyRows, List.filter_append]

theorem demoteLatest_Key (key : Nat) (r : MutableRow) :
    (demoteLatest key r).Key = r.Key := by
  unfold demoteLatest
  split <;> rfl

theorem demoteLatest_Version (key : Nat) (r : MutableRow) :
    (demoteLatest key r).Version = r.Version := by
  unfold demoteLatest
  split <;> rfl

theorem demoteLatest_IsLatest_false (key : Nat) (r : MutableRow)
    (h : (r.Key == key) = true) : (demoteLatest key r).IsLatest = false := by
  unfold demoteLatest
  by_cases hl : r.IsLatest = true
  · rw [if_pos (by simp [h, hl])]
  · rw [if_neg (by simp [h, hl])]
    simpa using hl

theorem keyRows_mem_beq {store : List MutableRow} {k : Nat} {r : MutableRow}
    (h : r ∈ keyRows store k) : (r.Key == k) = true :=
  (List.mem_filter.mp h).2

theorem keyRows_map_demote_ne (store : List MutableRow) (key k : Nat) (hne : k ≠ key) :
    keyRows (store.map (demoteLatest key)) k = keyRows store k := by
  induction store with
  | nil => rfl
  | cons r rs ih =>
    rw [List.map_cons, keyRows_cons, keyRows_cons, demoteLatest_Key]
    by_cases hk : (r.Key == k) = true
    · rw [if_pos hk, if_pos hk, ih]
      have hkey : (r.Key == key) = false := by
        rw [beq_eq_false_iff_ne]
        intro h
        exact hne (by rw [← eq_of_beq hk, h])
      have : demoteLatest key r = r := by
        unfold demoteLatest
        rw [if_neg (by simp [hkey])]
      rw [this]
    · rw [if_neg hk, if_neg hk, ih]

theorem keyRows_map_demote_eq (store : List MutableRow) (key : Nat) :
    keyRows (store.map (demoteLatest key)) key
      = (keyRows store key).map (demoteLatest key) := by
  induction store with
  | nil => rfl
  | cons r rs ih =>
    rw [List.map_cons, keyRows_cons, keyRows_cons, demoteLatest_Key]
    by_cases hk : (r.Key == key) = true
    · rw [if_pos hk, if_pos hk, List.map_cons, ih]
    · rw [if_neg hk, if_neg hk, ih]

theorem map_demote_IsLatest (rows : List MutableRow) (key : Nat)
    (hmem : ∀ r ∈ rows, (r.Key == key) = true) :
    (rows.map (demoteLatest key)).map MutableRow.IsLatest
      = List.replicate rows.length false := by
  induction rows with
  | nil => rfl
  | cons r rs ih =>
    simp only [List.map_cons, List.length_cons, List.replicate]
    rw [demoteLatest_IsLatest_false key r (hmem r (List.mem_cons_self r rs))]
    rw [ih (fun x hx => hmem x (List.mem_cons_of_mem r hx))]

theorem map_demote_Version (rows : List MutableRow) (key : Nat) :
    (rows.map (demoteLatest key)).map MutableRow.Version
      = rows.map MutableRow.Version := by
  rw [List.map_map]
  exact List.map_congr_left (fun r _ => demoteLatest_Version key r)

theorem find?_latest_of_pattern :
    ∀ (rows : List MutableRow) (m v : Nat),
      rows.map MutableRow.IsLatest = List.replicate m false ++ [true] →
      rows.map MutableRow.Version = List.range' v rows.length →
      ∃ r, rows.find? (fun x => x.IsLatest) = some r ∧ r.Version = v + m
  | [], m, v, hflags, _ => by
    exact absurd hflags (by simp [List.replicate])
  | r :: rest, 0, v, hflags, hvers => by
    simp only [List.map_cons, List.replicate, List.nil_append] at hflags
    obtain ⟨hr, hrest⟩ := List.cons.inj hflags
    have hrest' : rest = [] := by
      cases rest with
      | nil => rfl
      | cons a as => exact absurd hrest (by simp)
    subst hrest'
    simp only [List.map_cons, List.map_nil, List.length_cons, List.length_nil,
      List.range'] at hvers
    obtain ⟨hv, _⟩ := List.cons.inj hvers
    exact ⟨r, by simp [List.find?_cons, hr], by omega⟩
  | r :: rest, m + 1, v, hflags, hvers => by
    simp only [List.map_cons, List.replicate, List.cons_append] at hflags
    obtain ⟨hr, hrest⟩ := List.cons.inj hflags
    simp only [List.map_cons, List.length_cons, List.range'] at hvers
    obtain ⟨_, hvrest⟩ := List.cons.inj hvers
    obtain ⟨r', hfind, hver⟩ := find?_latest_of_pattern rest m (v + 1) hrest hvrest
    refine ⟨r', ?_, by omega⟩
    rw [List.find?_cons]
    simp [hr, hfind]

theorem filter_latest_of_pattern :
    ∀ (rows : List MutableRow) (m : Nat),
      rows.map MutableRow.IsLatest = List.replicate m false ++ [true] →
      (rows.filter (fun r => r.IsLatest)).length = 1
  | [], m, hflags => absurd hflags (by simp [List.replicate])
  | r :: rest, 0, hflags => by
    simp only [List.map_cons, List.replicate, List.nil_append] at hflags
    obtain ⟨hr, hrest⟩ := List.cons.inj hflags
    have hrest' : rest = [] := by
      cases rest with
      | nil => rfl
      | cons a as => exact absurd hrest (by simp)
    subst hrest'
    simp [List.filter_cons, hr]
  | r :: rest, m + 1, hflags => by
    simp only [List.map_cons, List.replicate, List.cons_append] at hflags
    obtain ⟨hr, hrest⟩ := List.cons.inj hflags
    rw [List.filter_cons]
    simp only [hr]
    exact filter_latest_of_pattern rest m hrest

theorem latest_version_of_pattern :
    ∀ (rows : List MutableRow) (m v : Nat),
      rows.map MutableRow.IsLatest = List.replicate m false ++ [true] →
      rows.map MutableRow.Version = List.range' v rows.length →
      ∀ r ∈ rows, r.IsLatest = true → r.Version = v + m
  | [], _, _, _, _, r, hr, _ => absurd hr (List.not_mem_nil r)
  | r :: rest, 0, v, hflags, hvers, x, hx, hxl => by
    simp only [List.map_cons, List.replicate, List.nil_append] at hflags
    obtain ⟨hr, hrest⟩ := List.cons.inj hflags
    have hrest' : rest = [] := by
      cases rest with
      | nil => rfl
      | cons a as => exact absurd hrest (by simp)
    subst hrest'
    rcases List.mem_cons.mp hx with rfl | hx'
    · simp only [List.map_cons, List.map_nil, List.length_cons, List.length_nil,
        List.range'] at hvers
      obtain ⟨hv, _⟩ := List.cons.inj hvers
      omega
    · exact absurd hx' (List.not_mem_nil x)
  | r :: rest, m + 1, v, hflags, hvers, x, hx, hxl => by
    simp only [List.map_cons, List.replicate, List.cons_append] at hflags
    obtain ⟨hr, hrest⟩ := List.cons.inj hflags
    simp only [List.map_cons, List.length_cons, List.range'] at hvers
    obtain ⟨_, hvrest⟩ := List.cons.inj hvers
    rcases List.mem_cons.mp hx with rfl | hx'
    · rw [hxl] at hr
      cases hr
    · have := latest_version_of_pattern rest m (v + 1) hrest hvrest x hx' hxl
      omega

theorem filter_and_filter {α : Type} (p q : α → Bool) (l : List α) :
    l.filter (fun a => p a && q a) = (l.filter p).filter q := by
  induction l with
  | nil => rfl
  | cons x xs ih =>
    by_cases hp : p x = true
    · rw [List.filter_cons_of_pos hp]
      by_cases hq : q x = true
      · have h1 : (p x && q x) = true := by simp [hp, hq]
        rw [@List.filter_cons_of_pos _ (fun a => p a && q a) x xs h1,
           List.filter_cons_of_pos hq, ih]
      · have h1 : ¬((p x && q x) = true) := by simp [hp, hq]
        rw [@List.filter_cons_of_neg _ (fun a => p a && q a) x xs h1,
           List.filter_cons_of_neg hq, ih]
    · have h1 : ¬((p x && q x) = true) := by simp [hp]
      rw [List.filter_cons_of_neg hp,
         @List.filter_cons_of_neg _ (fun a => p a && q a) x xs h1, ih]

theorem range'_append_singleton : ∀ (s n : Nat),
    List.range' s n ++ [s + n] = List.range' s (n + 1)
  | s, 0 => by simp [List.range']
  | s, n + 1 => by
    show s :: (List.range' (s + 1) n ++ [s + (n + 1)]) = s :: List.range' (s + 1) (n + 1)
    congr 1
    have h2 : s + (n + 1) = (s + 1) + n := by omega
    rw [h2]
    exact range'_append_singleton (s + 1) n

theorem range'_one_concat (n : Nat) :
    List.range' 1 n ++ [n + 1] = List.range' 1 (n + 1) := by
  have h := range'_append_singleton 1 n
  have h2 : 1 + n = n + 1 := by omega
  rw [h2] at h
  exact h

theorem find?_latest_keyRows (store : List MutableRow) (key : Nat) :
    store.find? (fun r => r.Key == key && r.IsLatest)
      = (keyRows store key).find? (fun r => r.IsLatest) :=
  find?_and_filter _ _ store

theorem nextVersion_eq (store : List MutableRow) (key : Nat)
    (hinv : mutableKeyInv store key) :
    nextVersion (priorOf store key) = (keyRows store key).length + 1 := by
  obtain ⟨hvers, hflags⟩ := hinv
  rcases hn : (keyRows store key).length with _ | m
  · have hrows : keyRows store key = [] := List.eq_nil_of_length_eq_zero hn
    unfold priorOf
    rw [find?_latest_keyRows, hrows]
    rfl
  · have hflags' : (keyRows store key).map MutableRow.IsLatest
        = List.replicate m false ++ [true] := by
      rw [hflags, hn]
      rfl
    obtain ⟨r, hfind, hver⟩ := find?_latest_of_pattern (keyRows store key) m 1 hflags' hvers
    unfold priorOf
    rw [find?_latest_keyRows, hfind]
    show r.Version + 1 = m + 1 + 1
    omega

theorem putMutable_keyRows_self (store : List MutableRow) (c : PutCall) :
    keyRows (putMutable store c) c.key
      = (keyRows store c.key).map (demoteLatest c.key)
        ++ [{ Key := c.key, Turn := c.turn,
              Version := nextVersion (priorOf store c.key), IsLatest := true,
              Visibility := c.visibility, Payload := c.payload,
              Changes := changesOf c.payload (priorOf store c.key) }] := by
  unfold putMutable
  rw [keyRows_append, keyRows_map_demote_eq]
  congr 1
  rw [keyRows_cons, if_pos (by simp)]
  rfl

theorem putMutable_keyRows_other (store : List MutableRow) (c : PutCall) (k : Nat)
    (hne : k ≠ c.key) : keyRows (putMutable store c) k = keyRows store k := by
  unfold putMutable
  rw [keyRows_append, keyRows_map_demote_ne store c.key k hne, keyRows_cons]
  rw [if_neg (by simp; intro h; exact hne h.symm)]
  simp [keyRows]

theorem putMutable_inv (store : List MutableRow) (c : PutCall)
    (hinv : ∀ k, mutableKeyInv store k) :
    ∀ k, mutableKeyInv (putMutable store c) k := by
  intro k
  by_cases hk : k = c.key
  · subst hk
    obtain ⟨hvers, hflags⟩ := hinv c.key
    constructor
    · rw [putMutable_keyRows_self, List.map_append, map_demote_Version,
         List.length_append, List.length_map]
      show (keyRows store c.key).map MutableRow.Version
            ++ [nextVersion (priorOf store c.key)]
          = List.range' 1 ((keyRows store c.key).length + 1)
      rw [hvers, nextVersion_eq store c.key (hinv c.key)]
      exact range'_one_concat (keyRows store c.key).length
    · rw [putMutable_keyRows_self, List.map_append,
         map_demote_IsLatest _ _ (fun r hr => keyRows_mem_beq hr),
         List.length_append, List.length_map]
      show List.replicate (keyRows store c.key).length false ++ [true]
          = latestPattern ((keyRows store c.key).length + 1)
      rfl
  · have hne : k ≠ c.key := hk
    exact ⟨by rw [putMutable_keyRows_other store c k hne]; exact (hinv k).1,
           by rw [putMutable_keyRows_other store c k hne]; exact (hinv k).2⟩

theorem putMutable_keyRows_self_length (store : List MutableRow) (c : PutCall) :
    (keyRows (putMutable store c) c.key).length = (keyRows store c.key).length + 1 := by
  rw [putMutable_keyRows_self, List.length_append, List.length_map]
  rfl

theorem runPuts_aux :
    ∀ (calls : List PutCall) (store : List MutableRow),
      (∀ k, mutableKeyInv store k) →
      (∀ k, mutableKeyInv (calls.foldl putMutable store) k)
      ∧ ∀ k, (keyRows (calls.foldl putMutable store) k).length
          = (keyRows store k).length + writesTo calls k
  | [], store, hinv => ⟨hinv, by intro k; simp [writesTo]⟩
  | c :: cs, store, hinv => by
    obtain ⟨hinv', hlen'⟩ := runPuts_aux cs (putMutable store c) (putMutable_inv store c hinv)
    refine ⟨hinv', ?_⟩
    intro k
    show (keyRows (cs.foldl putMutable (putMutable store c)) k).length
        = (keyRows store k).length + writesTo (c :: cs) k
    rw [hlen' k]
    by_cases hk : k = c.key
    · subst hk
      rw [putMutable_keyRows_self_length]
      have hw : writesTo (c :: cs) c.key = writesTo cs c.key + 1 := by
        simp [writesTo, List.filter_cons]
      omega
    · rw [putMutable_keyRows_other store c k hk]
      have hbeq : (c.key == k) = false := by
        rw [beq_eq_false_iff_ne]
        intro h
        exact hk h.symm
      have hw : writesTo (c :: cs) k = writesTo cs k := by
        simp [writesTo, List.filter_cons, hbeq]
      omega

/-- C1: After any settled sequence of `putMutable` calls (arbitrary
interleavings of concurrent callers are arbitrary call orders, since the spec
serializes each read-merge-write per key as one atomic transition), every Key
that was written has exactly one stored row with `IsLatest` set, its rows
carry the strictly increasing versions `1, 2, …, n` in storage order, and the
`Version` of the `IsLatest` row equals the number of successful writes to that
Key. -/
theorem putMutable_version_isLatest_invariant :
    ∀ (calls : List PutCall) (k : Nat), 1 ≤ writesTo calls k →
      ((runPuts calls).filter (fun r => r.Key == k && r.IsLatest)).length = 1
      ∧ (keyRows (runPuts calls) k).map MutableRow.Version
          = List.range' 1 (writesTo calls k)
      ∧ (keyRows (runPuts calls) k).length = writesTo calls k
      ∧ ∀ r ∈ runPuts calls, r.Key = k → r.IsLatest = true →
          r.Version = writesTo calls k := by
  intro calls k hk
  have hbase : ∀ k', mutableKeyInv ([] : List MutableRow) k' := fun _ => ⟨rfl, rfl⟩
  obtain ⟨hinv, hlen⟩ := runPuts_aux calls [] hbase
  have hlenk : (keyRows (runPuts calls) k).length = writesTo calls k := by
    have h := hlen k
    show (keyRows (calls.foldl putMutable []) k).length = writesTo calls k
    rw [h]
    simp [keyRows]
  obtain ⟨hvers, hflags⟩ := hinv k
  obtain ⟨m, hm⟩ : ∃ m, writesTo calls k = m + 1 := ⟨writesTo calls k - 1, by omega⟩
  have hflags' : (keyRows (runPuts calls) k).map MutableRow.IsLatest
      = List.replicate m false ++ [true] := by
    show (keyRows (calls.foldl putMutable []) k).map MutableRow.IsLatest = _
    rw [hflags]
    show latestPattern (keyRows (runPuts calls) k).length = _
    rw [hlenk, hm]
    rfl
  refine ⟨?_, ?_, hlenk, ?_⟩
  · rw [filter_and_filter]
    show ((keyRows (runPuts calls) k).filter (fun r => r.IsLatest)).length = 1
    exact filter_latest_of_pattern _ m hflags'
  · show (keyRows (calls.foldl putMutable []) k).map MutableRow.Version = _
    rw [hvers]
    show List.range' 1 (keyRows (runPuts calls) k).length = _
    rw [hlenk]
  · intro r hr hkey hlatest
    have hrmem : r ∈ keyRows (runPuts calls) k :=
      List.mem_filter.mpr ⟨hr, by simp [hkey]⟩
    have hvers' : (keyRows (runPuts calls) k).map MutableRow.Version
        = List.range' 1 (keyRows (runPuts calls) k).length := hvers
    have := latest_version_of_pattern (keyRows (runPuts calls) k) m 1 hflags' hvers'
      r hrmem hlatest
    omega

/-- Witness for C1: two writes to key 7 and one to key 3 — key 7 ends with a
single `IsLatest` row whose version is 2. -/
theorem putMutable_version_isLatest_invariant_witness :
    ((runPuts [⟨7, 1, fun _ => true, JsonFields.nil⟩,
               ⟨7, 2, fun _ => true, JsonFields.nil⟩,
               ⟨3, 5, fun _ => true, JsonFields.nil⟩]).filter
        (fun r => r.Key == 7 && r.IsLatest)).length = 1 :=
  (putMutable_version_isLatest_invariant
    [⟨7, 1, fun _ => true, JsonFields.nil⟩,
     ⟨7, 2, fun _ => true, JsonFields.nil⟩,
     ⟨3, 5, fun _ => true, JsonFields.nil⟩] 7 (by decide)).1

/-! ### C2: visibility filtering on reads -/

/-- C2: A read by an observer (`getLatest`, or a history read of a
Mutable or Timed table) never returns a record whose visibility bit for that
observer is unset; Public reads bypass the filter and return the same answer
to every observer. -/
theorem reads_respect_visibility :
    (∀ (store : List MutableRow) (o : Observer) (key : Nat) (r : MutableRow),
        getLatest store o key = some r → r.Visibility o = true)
    ∧ (∀ (store : List MutableRow) (o : Observer) (key limit : Nat),
        ∀ r ∈ getHistory store o key limit, r.Visibility o = true)
    ∧ (∀ (store : List TimedRow) (o : Observer) (stream limit : Nat),
        ∀ r ∈ getTimedHistory store o stream limit, r.Visibility o = true)
    ∧ (∀ (store : List PublicRow) (o o' : Observer) (key : Nat),
        getPublic store o key = getPublic store o' key) := by
  refine ⟨?_, ?_, ?_, ?_⟩
  · intro store o key r h
    have hmem : r ∈ visibleMutable store o := List.mem_of_find?_eq_some h
    exact (List.mem_filter.mp hmem).2
  · intro store o key limit r hr
    have h1 : r ∈ sortLe rowVersionGe
        ((visibleMutable store o).filter (fun x => x.Key == key)) :=
      List.mem_of_mem_take hr
    have h2 : r ∈ (visibleMutable store o).filter (fun x => x.Key == key) :=
      (mem_sortLe _ _ r).mp h1
    have h3 : r ∈ visibleMutable store o := (List.mem_filter.mp h2).1
    exact (List.mem_filter.mp h3).2
  · intro store o stream limit r hr
    have h1 : r ∈ sortLe timedTurnGe
        ((visibleTimed store o).filter (fun x => x.Stream == stream)) :=
      List.mem_of_mem_take hr
    have h2 : r ∈ (visibleTimed store o).filter (fun x => x.Stream == stream) :=
      (mem_sortLe _ _ r).mp h1
    have h3 : r ∈ visibleTimed store o := (List.mem_filter.mp h2).1
    exact (List.mem_filter.mp h3).2
  · intro store o o' key
    rfl

/-- Witness for C2: a store with one row visible to observer 0 — `getLatest`
returns it and its bit for observer 0 is set. -/
theorem reads_respect_visibility_witness :
    ({ Key := 7, Turn := 1, Version := 1, IsLatest := true,
       Visibility := fun _ => true, Payload := JsonFields.nil,
       Changes := [] } : MutableRow).Visibility ⟨0, by decide⟩ = true :=
  reads_respect_visibility.1
    [{ Key := 7, Turn := 1, Version := 1, IsLatest := true,
       Visibility := fun _ => true, Payload := JsonFields.nil, Changes := [] }]
    ⟨0, by decide⟩ 7
    { Key := 7, Turn := 1, Version := 1, IsLatest := true,
      Visibility := fun _ => true, Payload := JsonFields.nil, Changes := [] }
    rfl

/-! ### C5: appendTimed turn monotonicity -/

theorem lastTurnOf_append (store : List TimedRow) (stream turn : Nat)
    (vis : VisibilityMap) (payload : JsonFields) :
    lastTurnOf (store ++ [⟨stream, turn, vis, payload⟩]) stream = some turn := by
  unfold lastTurnOf
  rw [List.filter_append, List.map_append]
  have h1 : List.filter (fun r => r.Stream == stream)
      [(⟨stream, turn, vis, payload⟩ : TimedRow)] = [⟨stream, turn, vis, payload⟩] := by
    simp [List.filter_cons]
  rw [h1]
  exact List.getLast?_concat _

theorem appendRun_ok :
    ∀ (turns : List Nat) (store : List TimedRow) (stream : Nat) (vis : VisibilityMap)
      (payload : JsonFields),
      List.Chain' (· ≤ ·) turns →
      (∀ lastTurn, lastTurnOf store stream = some lastTurn →
        ∀ t ∈ turns.head?, lastTurn ≤ t) →
      ∃ store', appendRun store stream vis payload turns = Except.ok store'
  | [], store, _, _, _, _, _ => ⟨store, rfl⟩
  | t :: ts, store, stream, vis, payload, hchain, hfirst => by
    have hok : appendTimed store stream t vis payload
        = Except.ok (store ++ [⟨stream, t, vis, payload⟩]) := by
      unfold appendTimed
      cases hl : lastTurnOf store stream with
      | none => rfl
      | some lastTurn =>
        have hle : lastTurn ≤ t := hfirst lastTurn hl t (by simp)
        dsimp only
        rw [if_neg (by omega)]
    have hchain' : List.Chain' (· ≤ ·) ts := hchain.tail
    have hfirst' : ∀ lastTurn,
        lastTurnOf (store ++ [⟨stream, t, vis, payload⟩]) stream = some lastTurn →
        ∀ t' ∈ ts.head?, lastTurn ≤ t' := by
      intro lastTurn hl t' ht'
      rw [lastTurnOf_append] at hl
      obtain rfl : t = lastTurn := Option.some.inj hl
      exact List.chain'_cons'.mp hchain |>.1 t' ht'
    obtain ⟨store', hrun⟩ :=
      appendRun_ok ts (store ++ [⟨stream, t, vis, payload⟩]) stream vis payload hchain' hfirst'
    refine ⟨store', ?_⟩
    unfold appendRun
    rw [hok]
    exact hrun

/-- C5: `appendTimed` rejects a call iff its turn is strictly below the
last turn recorded for the stream (so a non-decreasing turn sequence from a
fresh stream never fails), and a successful append only ever adds a row at
the end — it never overwrites the record of a prior Turn. -/
theorem appendTimed_turn_monotonicity :
    (∀ (store : List TimedRow) (stream turn : Nat) (vis : VisibilityMap)
        (payload : JsonFields),
        (∃ e, appendTimed store stream turn vis payload = Except.error e)
          ↔ ∃ lastTurn, lastTurnOf store stream = some lastTurn ∧ turn < lastTurn)
    ∧ (∀ (stream : Nat) (vis : VisibilityMap) (payload : JsonFields) (turns : List Nat),
        List.Chain' (· ≤ ·) turns →
        ∃ store', appendRun [] stream vis payload turns = Except.ok store')
    ∧ (∀ (store : List TimedRow) (stream turn : Nat) (vis : VisibilityMap)
        (payload : JsonFields) (store' : List TimedRow),
        appendTimed store stream turn vis payload = Except.ok store' →
        store' = store ++ [⟨stream, turn, vis, payload⟩]) := by
  refine ⟨?_, ?_, ?_⟩
  · intro store stream turn vis payload
    unfold appendTimed
    cases hl : lastTurnOf store stream with
    | none =>
      constructor
      · rintro ⟨e, he⟩
        cases he
      · rintro ⟨lastTurn, hsome, _⟩
        cases hsome
    | some lastTurn =>
      dsimp only
      by_cases hlt : turn < lastTurn
      · rw [if_pos hlt]
        exact ⟨fun _ => ⟨lastTurn, rfl, hlt⟩, fun _ => ⟨StoreError.validationError, rfl⟩⟩
      · rw [if_neg hlt]
        constructor
        · rintro ⟨e, he⟩
          cases he
        · rintro ⟨lastTurn', hsome, hlt'⟩
          obtain rfl : lastTurn = lastTurn' := Option.some.inj hsome
          exact absurd hlt' hlt
  · intro stream vis payload turns hchain
    exact appendRun_ok turns [] stream vis payload hchain
      (by intro lastTurn hl; cases hl)
  · intro store stream turn vis payload store' h
    unfold appendTimed at h
    cases hl : lastTurnOf store stream with
    | none =>
      rw [hl] at h
      exact (Except.ok.inj h).symm
    | some lastTurn =>
      rw [hl] at h
      dsimp only at h
      by_cases hlt : turn < lastTurn
      · rw [if_pos hlt] at h
        cases h
      · rw [if_neg hlt] at h
        exact (Except.ok.inj h).symm

/-- Witness for C5: the non-decreasing turn sequence `[1, 1, 2]` appends
without failure on a fresh stream. -/
theorem appendTimed_turn_monotonicity_witness :
    ∃ store', appendRun [] 0 (fun _ => true) JsonFields.nil [1, 1, 2] = Except.ok store' :=
  appendTimed_turn_monotonicity.2.1 0 (fun _ => true) JsonFields.nil [1, 1, 2]
    (by simp [List.chain'_cons])

/-! ### C7: getHistory ordering -/

theorem rowVersionGe_total (a b : MutableRow) :
    rowVersionGe a b = true ∨ rowVersionGe b a = true := by
  unfold rowVersionGe
  rcases Nat.le_total b.Version a.Version with h | h
  · exact Or.inl (by simpa using h)
  · exact Or.inr (by simpa using h)

theorem rowVersionGe_trans (a b c : MutableRow) (h1 : rowVersionGe a b = true)
    (h2 : rowVersionGe b c = true) : rowVersionGe a c = true := by
  unfold rowVersionGe at h1 h2 ⊢
  simp only [decide_eq_true_eq] at h1 h2 ⊢
  omega

/-- C7: `getHistory` returns the stored versions for the key (filtered to
the observer) as a sequence sorted newest first — descending `Version` — so
its first `limit` elements are the most recent entries: everything it returns
has a version at least as large as everything it cuts off. -/
theorem getHistory_newest_first :
    ∀ (store : List MutableRow) (o : Observer) (key limit : Nat),
      sortedLe rowVersionGe (getHistory store o key limit) = true
      ∧ List.Perm
          (sortLe rowVersionGe ((visibleMutable store o).filter (fun r => r.Key == key)))
          ((visibleMutable store o).filter (fun r => r.Key == key))
      ∧ getHistory store o key limit
          = (sortLe rowVersionGe
              ((visibleMutable store o).filter (fun r => r.Key == key))).take limit
      ∧ ((getHistory store o key limit).all (fun x =>
            ((sortLe rowVersionGe ((visibleMutable store o).filter
                (fun r => r.Key == key))).drop limit).all (fun y =>
              y.Version ≤ x.Version))) = true := by
  intro store o key limit
  refine ⟨?_, perm_sortLe _ _, rfl, ?_⟩
  · exact sortedLe_take rowVersionGe _ limit
      (sortedLe_sortLe rowVersionGe rowVersionGe_total _)
  · rw [List.all_eq_true]
    intro x hx
    rw [List.all_eq_true]
    intro y hy
    have h := sortedLe_take_le_drop rowVersionGe rowVersionGe_trans
      (sortLe rowVersionGe ((visibleMutable store o).filter (fun r => r.Key == key)))
      limit (sortedLe_sortLe rowVersionGe rowVersionGe_total _) x hx y hy
    unfold rowVersionGe at h
    simpa using h

/-! ### C3: backpressure hysteresis -/

theorem queueStep_no_signal (s : QueueState) (e : QueueEvent)
    (hov : s.overflow = false) (hbound : (queueStep s e).pending ≤ highWater) :
    (queueStep s e).pauseSignals = s.pauseSignals
    ∧ (queueStep s e).resumeSignals = s.resumeSignals
    ∧ (queueStep s e).overflow = false := by
  cases e with
  | submit =>
    unfold queueStep at hbound ⊢
    dsimp only at hbound ⊢
    by_cases hcond : (decide (highWater < s.pending + 1) && !s.overflow) = true
    · rw [if_pos hcond] at hbound
      exfalso
      simp only [Bool.and_eq_true, decide_eq_true_eq] at hcond
      obtain ⟨h1, _⟩ := hcond
      unfold QueueState.pending at h1 hbound
      dsimp only at hbound
      omega
    · rw [if_neg hcond]
      exact ⟨rfl, rfl, hov⟩
  | dispatch =>
    unfold queueStep
    dsimp only
    split
    · exact ⟨rfl, rfl, hov⟩
    · exact ⟨rfl, rfl, hov⟩
  | complete =>
    unfold queueStep
    dsimp only
    split
    · exact ⟨rfl, rfl, hov⟩
    · rw [if_neg (by simp [hov])]
      exact ⟨rfl, rfl, hov⟩

theorem queue_bounded_no_signals :
    ∀ (events : List QueueEvent) (s : QueueState),
      s.overflow = false → pendingBounded s events = true →
      (queueRun events s).pauseSignals = s.pauseSignals
      ∧ (queueRun events s).resumeSignals = s.resumeSignals
      ∧ (queueRun events s).overflow = false
  | [], s, hov, _ => ⟨rfl, rfl, hov⟩
  | e :: es, s, hov, hbound => by
    unfold pendingBounded at hbound
    dsimp only at hbound
    rw [Bool.and_eq_true] at hbound
    obtain ⟨h1, h2⟩ := hbound
    have h1' : (queueStep s e).pending ≤ highWater := of_decide_eq_true h1
    obtain ⟨hp, hr, ho⟩ := queueStep_no_signal s e hov h1'
    obtain ⟨hp', hr', ho'⟩ := queue_bounded_no_signals es (queueStep s e) ho h2
    refine ⟨?_, ?_, ho'⟩
    · show (queueRun es (queueStep s e)).pauseSignals = s.pauseSignals
      rw [hp', hp]
    · show (queueRun es (queueStep s e)).resumeSignals = s.resumeSignals
      rw [hr', hr]

/-- C3: With high-water 50 and low-water 20: 51 standard submissions (the
first 50 dispatched) trigger exactly one pause signal and set `overflow`;
while `overflow` is set a dispatch event admits nothing; draining the pending
count to 19 triggers exactly one resume signal and clears `overflow`; and a
trace that starts un-overflowed and keeps the pending count at or below the
high-water mark (such as oscillation between 45 and 49) fires no pause and no
resume. -/
theorem backpressure_hysteresis :
    highWater = 50 ∧ lowWater = 20
    ∧ (queueRun (submitDispatchPairs 50 ++ [QueueEvent.submit]) queueInit).pauseSignals = 1
    ∧ (queueRun (submitDispatchPairs 50 ++ [QueueEvent.submit]) queueInit).overflow = true
    ∧ (∀ s : QueueState, s.overflow = true → queueStep s QueueEvent.dispatch = s)
    ∧ (queueRun (List.replicate 32 QueueEvent.complete)
        (queueRun (submitDispatchPairs 50 ++ [QueueEvent.submit]) queueInit)).pending = 19
    ∧ (queueRun (List.replicate 32 QueueEvent.complete)
        (queueRun (submitDispatchPairs 50 ++ [QueueEvent.submit]) queueInit)).resumeSignals = 1
    ∧ (queueRun (List.replicate 32 QueueEvent.complete)
        (queueRun (submitDispatchPairs 50 ++ [QueueEvent.submit]) queueInit)).overflow = false
    ∧ (queueRun (List.replicate 32 QueueEvent.complete)
        (queueRun (submitDispatchPairs 50 ++ [QueueEvent.submit]) queueInit)).pauseSignals = 1
    ∧ (∀ (s : QueueState) (events : List QueueEvent),
        s.overflow = false → pendingBounded s events = true →
        (queueRun events s).pauseSignals = s.pauseSignals
        ∧ (queueRun events s).resumeSignals = s.resumeSignals
        ∧ (queueRun events s).overflow = false) := by
  refine ⟨rfl, rfl, by decide, by decide, ?_, by decide, by decide, by decide, by decide, ?_⟩
  · intro s hov
    unfold queueStep
    dsimp only
    rw [if_pos (by simp [hov])]
  · intro s events hov hbounded
    exact queue_bounded_no_signals events s hov hbounded

/-- Witness for C3: from a state with 45 operations in flight, an oscillation
of four submissions (dispatched) and four completions keeps pending between 45
and 49 and fires no pause or resume. -/
theorem backpressure_hysteresis_witness :
    (queueRun
        (submitDispatchPairs 4 ++ List.replicate 4 QueueEvent.complete
          ++ submitDispatchPairs 4 ++ List.replicate 4 QueueEvent.complete)
        (queueRun (submitDispatchPairs 45) queueInit)).pauseSignals
      = (queueRun (submitDispatchPairs 45) queueInit).pauseSignals :=
  (backpressure_hysteresis.2.2.2.2.2.2.2.2.2
    (queueRun (submitDispatchPairs 45) queueInit)
    (submitDispatchPairs 4 ++ List.replicate 4 QueueEvent.complete
      ++ submitDispatchPairs 4 ++ List.replicate 4 QueueEvent.complete)
    (by decide) (by decide)).1

/-! ### C4: disconnect failure semantics -/

/-- C4: A `dll_status: disconnected` event fails every pending and
in-flight operation in both lanes with a TransportError in that single
transition (their count is exactly the number of pending operations), leaves
nothing queued or in flight, and marks the link disconnected; while
disconnected a dispatch event is a no-op (no further dispatch until a
`connected` event); and no step ever re-enqueues an operation that was not
just submitted — failed operations are never retried (the failed list only
ever grows at its end). -/
theorem disconnect_fails_all_pending :
    (∀ s : SessionState,
        (sessionStep s SessionEvent.statusDisconnected).failed
          = s.failed ++ (s.queuedOps ++ s.inFlightOps).map
              (fun op => (op, OpError.transportError))
        ∧ (sessionStep s SessionEvent.statusDisconnected).queuedOps = []
        ∧ (sessionStep s SessionEvent.statusDisconnected).inFlightOps = []
        ∧ (sessionStep s SessionEvent.statusDisconnected).connected = false
        ∧ (sessionStep s SessionEvent.statusDisconnected).failed.length
            = s.failed.length + (s.queuedOps.length + s.inFlightOps.length))
    ∧ (∀ s : SessionState, s.connected = false →
        sessionStep s SessionEvent.dispatchOne = s)
    ∧ (∀ (s : SessionState) (e : SessionEvent) (op : Operation),
        op ∈ (sessionStep s e).queuedOps → op ∈ s.queuedOps ∨ e = SessionEvent.submit op)
    ∧ (∀ (s : SessionState) (e : SessionEvent),
        s.failed <+: (sessionStep s e).failed) := by
  refine ⟨?_, ?_, ?_, ?_⟩
  · intro s
    refine ⟨rfl, rfl, rfl, rfl, ?_⟩
    show (s.failed ++ (s.queuedOps ++ s.inFlightOps).map
        (fun op => (op, OpError.transportError))).length = _
    simp [List.length_append, List.length_map]
  · intro s hcon
    unfold sessionStep
    rw [if_pos (by simp [hcon])]
  · intro s e op h
    cases e with
    | submit op' =>
      have h' : op ∈ s.queuedOps ++ [op'] := h
      rcases List.mem_append.mp h' with hmem | hmem
      · exact Or.inl hmem
      · obtain rfl : op = op' := by simpa using hmem
        exact Or.inr rfl
    | dispatchOne =>
      left
      unfold sessionStep at h
      dsimp only at h
      split at h
      · exact h
      · split at h
        · exact h
        · next op0 rest heq =>
          rw [heq]
          exact List.mem_cons_of_mem op0 h
    | completeOne =>
      left
      unfold sessionStep at h
      dsimp only at h
      split at h
      · exact h
      · exact h
    | statusDisconnected =>
      left
      unfold sessionStep at h
      dsimp only at h
      exact absurd h (List.not_mem_nil op)
    | statusConnected =>
      exact Or.inl h
  · intro s e
    cases e <;> unfold sessionStep <;> dsimp only
    case submit op => exact List.prefix_rfl
    case dispatchOne =>
      split
      · exact List.prefix_rfl
      · split
        · exact List.prefix_rfl
        · exact List.prefix_rfl
    case completeOne =>
      split
      · exact List.prefix_rfl
      · exact List.prefix_rfl
    case statusDisconnected => exact List.prefix_append _ _
    case statusConnected => exact List.prefix_rfl

/-- Witness for C4: with the link down and one queued operation, a dispatch
event changes nothing. -/
theorem disconnect_fails_all_pending_witness :
    sessionStep ⟨false, [⟨1, Lane.standard⟩], [], [], []⟩ SessionEvent.dispatchOne
      = ⟨false, [⟨1, Lane.standard⟩], [], [], []⟩ :=
  disconnect_fails_all_pending.2.1 ⟨false, [⟨1, Lane.standard⟩], [], [], []⟩ rfl

end VoxDeorum
